import Mathlib

/-!
Verification of the minecraft-world-json-serializer core against its
specification.  The Rust source is shallowly embedded:

* Rust `String`/`&str` values are modelled as `List Char` (`Str`).  The
  source occasionally inspects raw UTF-8 bytes (`s.as_bytes()[1]`,
  `s.len()`); at each such place the embedding states the extensionally
  equivalent character-level condition and a comment records the
  byte-level original.
* Machine integers are modelled as `Int`/`Nat` with explicit `% 2 ^ w`
  where the source can overflow.
* The external libraries that the spec itself declares opaque
  (fastnbt's byte codec, flate2's zlib/gzip streams, the float
  formatting/parsing of `core`) enter as explicit function parameters
  bundled in structures, together with the contracts those libraries
  document; every theorem that needs a contract takes it as a
  hypothesis, and a trivial concrete instance discharges them in
  witnesses.
* Fallible Rust code returns `Except`/`Option`; a Rust panic (slice
  out of range, index out of bounds) is modelled as a distinguished
  error constructor, never as a Lean partial function.
-/

/-- Strings are modelled as lists of characters. -/
abbrev Str := List Char

/-- The byte length of a string, as Rust's `str::len` reports it
(UTF-8 encoded size). -/
def strBytes (s : Str) : Nat := (s.map Char.utf8Size).sum

/-- ASCII decimal digit test (Rust's integer parsing accepts only
ASCII digits). -/
def isDig (c : Char) : Bool := '0' ≤ c && c ≤ '9'

/-- Numeric value of an ASCII digit character. -/
def digVal (c : Char) : Nat := c.toNat - 48

/-- The ASCII digit character for `n < 10`. -/
def digChar (n : Nat) : Char := Char.ofNat (48 + n)

/-- Decimal digits of `n`, most significant first, via explicit fuel so
that the definition is structural (hence kernel-computable).  Correct
whenever `n ≤ fuel`.  Empty for `n = 0`; `fmtNat` handles that case. -/
def natDigitsAux : Nat → Nat → Str
  | 0, _ => []
  | f + 1, n => if n = 0 then [] else natDigitsAux f (n / 10) ++ [digChar (n % 10)]

/-- Decimal rendering of a natural number, as Rust's `Display` for
unsigned integers produces it. -/
def fmtNat (n : Nat) : Str := if n = 0 then ['0'] else natDigitsAux n n

/-- Decimal rendering of an integer, as Rust's `format!("{}", v)`
produces for the signed integer types. -/
def fmtInt (v : Int) : Str := if v < 0 then '-' :: fmtNat (-v).toNat else fmtNat v.toNat

/-- Left fold accumulating decimal digits; `none` on the first
non-digit character. -/
def foldDigits (acc : Nat) : Str → Option Nat
  | [] => some acc
  | c :: cs => if isDig c then foldDigits (acc * 10 + digVal c) cs else none

/-- Parse an unsigned run of one or more ASCII digits (whole string). -/
def parseDigits (s : Str) : Option Nat := if s = [] then none else foldDigits 0 s

/-- Rust's `str::parse` for a signed integer type with range
`[lo, hi]`: an optional `+`/`-` sign, one or more ASCII digits and
nothing else; out-of-range values are an error (Rust reports overflow
during accumulation, which rejects exactly the out-of-range decimal
strings). -/
def parseIntIn (lo hi : Int) (s : Str) : Option Int :=
  match s with
  | [] => none
  | c :: cs =>
    let sgn : Int := if c = '-' then -1 else 1
    let ds : Str := if c = '+' ∨ c = '-' then cs else c :: cs
    (parseDigits ds).bind fun n =>
      if lo ≤ sgn * (n : Int) ∧ sgn * (n : Int) ≤ hi then some (sgn * (n : Int)) else none

/-- `i8::from_str`. -/
def parseI8 (s : Str) : Option Int := parseIntIn (-128) 127 s

/-- `i16::from_str`. -/
def parseI16 (s : Str) : Option Int := parseIntIn (-32768) 32767 s

/-- `i32::from_str`. -/
def parseI32 (s : Str) : Option Int := parseIntIn (-2147483648) 2147483647 s

/-- `i64::from_str`. -/
def parseI64 (s : Str) : Option Int := parseIntIn (-9223372036854775808) 9223372036854775807 s

theorem isDig_digChar (k : Nat) (hk : k < 10) : isDig (digChar k) = true := by
  interval_cases k <;> decide

theorem natDigitsAux_digits (fuel : Nat) :
    ∀ n, ∀ c ∈ natDigitsAux fuel n, isDig c = true := by
  induction fuel with
  | zero => intro n c hc; simp [natDigitsAux] at hc
  | succ f ih =>
    intro n c hc
    simp only [natDigitsAux] at hc
    split at hc
    · simp at hc
    · rcases List.mem_append.1 hc with h | h
      · exact ih (n / 10) c h
      · simp at h
        subst h
        exact isDig_digChar _ (Nat.mod_lt _ (by omega))

theorem fmtNat_digits (n : Nat) : ∀ c ∈ fmtNat n, isDig c = true := by
  unfold fmtNat
  split
  · intro c hc; simp at hc; subst hc; decide
  · exact natDigitsAux_digits n n

theorem fmtNat_ne_nil (n : Nat) : fmtNat n ≠ [] := by
  unfold fmtNat
  split
  · simp
  · rename_i h0
    cases n with
    | zero => exact absurd rfl h0
    | succ m =>
      simp only [natDigitsAux]
      rw [if_neg h0]
      simp

theorem foldDigits_of_digits (xs : Str) (hx : ∀ c ∈ xs, isDig c = true) :
    ∀ acc, foldDigits acc xs = some (xs.foldl (fun a c => a * 10 + digVal c) acc) := by
  induction xs with
  | nil => intro acc; rfl
  | cons c cs ih =>
    intro acc
    have hc : isDig c = true := hx c (List.mem_cons_self c cs)
    simp only [foldDigits, hc, if_true, List.foldl_cons]
    exact ih (fun d hd => hx d (List.mem_cons_of_mem c hd)) _

theorem digVal_digChar (k : Nat) (hk : k < 10) : digVal (digChar k) = k := by
  interval_cases k <;> decide

theorem foldl_natDigitsAux (fuel : Nat) :
    ∀ n, n ≤ fuel → ∀ acc, (natDigitsAux fuel n).foldl (fun a c => a * 10 + digVal c) acc
      = acc * 10 ^ (natDigitsAux fuel n).length + n := by
  induction fuel with
  | zero =>
    intro n hn acc
    have : n = 0 := by omega
    subst this
    simp [natDigitsAux]
  | succ f ih =>
    intro n hn acc
    by_cases h0 : n = 0
    · subst h0; simp [natDigitsAux]
    · have step : natDigitsAux (f + 1) n
          = natDigitsAux f (n / 10) ++ [digChar (n % 10)] := by
        simp only [natDigitsAux]
        rw [if_neg h0]
      rw [step, List.foldl_append]
      have hle : n / 10 ≤ f := by omega
      rw [ih _ hle acc]
      simp only [List.foldl_cons, List.foldl_nil, List.length_append, List.length_singleton]
      rw [digVal_digChar _ (Nat.mod_lt _ (by omega))]
      rw [pow_succ]
      have hdm : n / 10 * 10 + n % 10 = n := by omega
      ring_nf
      omega

theorem foldl_fmtNat (n : Nat) :
    (fmtNat n).foldl (fun a c => a * 10 + digVal c) 0 = n := by
  by_cases h0 : n = 0
  · subst h0; decide
  · unfold fmtNat
    rw [if_neg h0, foldl_natDigitsAux n n (le_refl n) 0]
    ring

theorem parseDigits_fmtNat (n : Nat) : parseDigits (fmtNat n) = some n := by
  unfold parseDigits
  rw [if_neg (fmtNat_ne_nil n)]
  rw [foldDigits_of_digits _ (fmtNat_digits n)]
  rw [foldl_fmtNat]

theorem isDig_ne_plus {c : Char} (h : isDig c = true) : c ≠ '+' := by
  intro he; subst he; simp [isDig] at h

theorem isDig_ne_minus {c : Char} (h : isDig c = true) : c ≠ '-' := by
  intro he; subst he; simp [isDig] at h

theorem mem_of_getLast?_eq {α : Type} {l : List α} {c : α} (h : l.getLast? = some c) : c ∈ l := by
  have hm : c ∈ l.getLast? := by rw [h]; rfl
  rcases List.mem_getLast?_eq_getLast hm with ⟨hne, rfl⟩
  exact List.getLast_mem hne

theorem parseIntIn_pos (lo hi : Int) (n : Nat) (hr : lo ≤ (n : Int) ∧ (n : Int) ≤ hi) :
    parseIntIn lo hi (fmtNat n) = some ((n : Int)) := by
  rcases hn : fmtNat n with _ | ⟨c, cs⟩
  · exact absurd hn (fmtNat_ne_nil n)
  · have hc : isDig c = true := fmtNat_digits n c (by rw [hn]; exact List.mem_cons_self c cs)
    show parseIntIn lo hi (c :: cs) = some n
    have hnp : ¬(c = '+' ∨ c = '-') := by
      rintro (h | h)
      · exact isDig_ne_plus hc h
      · exact isDig_ne_minus hc h
    simp only [parseIntIn, if_neg (isDig_ne_minus hc), if_neg hnp]
    rw [← hn, parseDigits_fmtNat]
    simp [hr]

theorem parseIntIn_fmtInt (lo hi v : Int) (h1 : lo ≤ v) (h2 : v ≤ hi) :
    parseIntIn lo hi (fmtInt v) = some v := by
  unfold fmtInt
  by_cases hv : v < 0
  · rw [if_pos hv]
    show parseIntIn lo hi ('-' :: fmtNat (-v).toNat) = some v
    simp only [parseIntIn]
    norm_num
    rw [parseDigits_fmtNat]
    have hcast : ((-v).toNat : Int) = -v := Int.toNat_of_nonneg (by omega)
    simp only [Option.some_bind, hcast]
    rw [if_pos ⟨by omega, by omega⟩]
    congr 1
    omega
  · rw [if_neg hv]
    have hcast : ((v.toNat : Int)) = v := Int.toNat_of_nonneg (by omega)
    have := parseIntIn_pos lo hi v.toNat (by rw [hcast]; exact ⟨h1, h2⟩)
    rw [this, hcast]

theorem fmtInt_chars (v : Int) : ∀ c ∈ fmtInt v, isDig c = true ∨ c = '-' := by
  unfold fmtInt
  split
  · intro c hc
    rcases List.mem_cons.1 hc with h | h
    · exact Or.inr h
    · exact Or.inl (fmtNat_digits _ c h)
  · intro c hc
    exact Or.inl (fmtNat_digits _ c hc)

theorem fmtInt_ne_nil (v : Int) : fmtInt v ≠ [] := by
  unfold fmtInt
  split
  · simp
  · exact fmtNat_ne_nil _

theorem fmtInt_getLast_dig (v : Int) (hv : 0 ≤ v) :
    ∀ c, (fmtInt v).getLast? = some c → isDig c = true := by
  intro c hc
  have hm : c ∈ fmtInt v := mem_of_getLast?_eq hc
  rcases fmtInt_chars v c hm with h | h
  · exact h
  · subst h
    unfold fmtInt at hc
    rw [if_neg (by omega)] at hc
    have := fmtNat_digits v.toNat '-' (mem_of_getLast?_eq hc)
    simp [isDig] at this

/-- Lower-case an ASCII letter. -/
def charLower (c : Char) : Char :=
  if 'A' ≤ c ∧ c ≤ 'Z' then Char.ofNat (c.toNat + 32) else c

/-- Case-insensitive equality of `s` with an (all lower-case) word `w`. -/
def matchCI : Str → Str → Bool
  | [], [] => true
  | c :: cs, d :: ds => (charLower c = d) && matchCI cs ds
  | _, _ => false

/-- Consume a maximal (possibly empty) run of ASCII digits, returning
the remainder. -/
def eatDigits0 : Str → Str
  | [] => []
  | c :: cs => if isDig c then eatDigits0 cs else c :: cs

/-- Consume a maximal nonempty run of ASCII digits; `none` if the
first character is not a digit. -/
def eatDigits1 : Str → Option Str
  | [] => none
  | c :: cs => if isDig c then some (eatDigits0 cs) else none

/-- An optional exponent part consuming the whole remainder:
empty, or `e`/`E`, an optional sign, and one or more digits. -/
def expTail : Str → Bool
  | [] => true
  | c :: cs =>
    if c = 'e' ∨ c = 'E' then
      match cs with
      | [] => false
      | d :: ds =>
        if d = '+' ∨ d = '-' then eatDigits1 ds = some []
        else eatDigits1 (d :: ds) = some []
    else false

/-- The `Number` production of Rust's float grammar:
`Count '.'? Count? Exp?` or `'.' Count Exp?`. -/
def floatNumber (s : Str) : Bool :=
  match s with
  | '.' :: rest =>
    match eatDigits1 rest with
    | none => false
    | some r => expTail r
  | s =>
    match eatDigits1 s with
    | none => false
    | some r =>
      match r with
      | '.' :: r2 => expTail (eatDigits0 r2)
      | r => expTail r

/-- The body of Rust's float grammar after the optional sign:
`inf`, `infinity`, `nan` (case-insensitive) or a `Number`. -/
def floatGrammarBody (s : Str) : Bool :=
  matchCI s ('i' :: 'n' :: 'f' :: []) || matchCI s ('i' :: 'n' :: 'f' :: 'i' :: 'n' :: 'i' :: 't' :: 'y' :: [])
    || matchCI s ('n' :: 'a' :: 'n' :: []) || floatNumber s

/-- Exactly the strings accepted by Rust's `f64::from_str` (equally
`f32::from_str`: the two share one grammar, and parsing a
grammar-conforming string never errors — overflow saturates to
infinity).  This models `s.parse::<f64>().is_ok()`. -/
def rustFloatGrammar : Str → Bool
  | [] => false
  | c :: cs => if c = '+' ∨ c = '-' then floatGrammarBody cs else floatGrammarBody (c :: cs)

theorem foldDigits_some_digits (s : Str) :
    ∀ acc n, foldDigits acc s = some n → ∀ c ∈ s, isDig c = true := by
  induction s with
  | nil => intro _ _ _ c hc; simp at hc
  | cons c cs ih =>
    intro acc n h d hd
    unfold foldDigits at h
    by_cases hc : isDig c = true
    · rcases List.mem_cons.1 hd with he | he
      · subst he; exact hc
      · rw [if_pos hc] at h
        exact ih _ _ h d he
    · rw [if_neg hc] at h
      simp at h

theorem eatDigits0_all (s : Str) (h : ∀ c ∈ s, isDig c = true) : eatDigits0 s = [] := by
  induction s with
  | nil => rfl
  | cons c cs ih =>
    unfold eatDigits0
    rw [if_pos (h c (List.mem_cons_self c cs))]
    exact ih (fun d hd => h d (List.mem_cons_of_mem c hd))

theorem eatDigits1_all (s : Str) (hne : s ≠ []) (h : ∀ c ∈ s, isDig c = true) :
    eatDigits1 s = some [] := by
  match s with
  | [] => exact absurd rfl hne
  | c :: cs =>
    show (if isDig c = true then some (eatDigits0 cs) else none) = some []
    rw [if_pos (h c (List.mem_cons_self c cs))]
    rw [eatDigits0_all cs (fun d hd => h d (List.mem_cons_of_mem c hd))]

theorem floatNumber_digits (s : Str) (hne : s ≠ []) (h : ∀ c ∈ s, isDig c = true) :
    floatNumber s = true := by
  match s with
  | [] => exact absurd rfl hne
  | c :: cs =>
    have hc : isDig c = true := h c (List.mem_cons_self c cs)
    have hcd : c ≠ '.' := by intro he; subst he; simp [isDig] at hc
    have he1 : eatDigits1 (c :: cs) = some [] := eatDigits1_all _ (by simp) h
    unfold floatNumber
    split
    · rename_i heq
      exact absurd (List.head_eq_of_cons_eq heq.symm).symm hcd
    · rw [he1]
      rfl

theorem parseDigits_grammar (s : Str) (n : Nat) (h : parseDigits s = some n) :
    s ≠ [] ∧ ∀ c ∈ s, isDig c = true := by
  unfold parseDigits at h
  by_cases hne : s = []
  · rw [if_pos hne] at h; simp at h
  · rw [if_neg hne] at h
    exact ⟨hne, foldDigits_some_digits s 0 n h⟩

/-- Every string some `iN::from_str` accepts is also accepted by the
float grammar: the decoder's fall-through order relies on this. -/
theorem parseIntIn_grammar (lo hi : Int) (s : Str) (v : Int)
    (h : parseIntIn lo hi s = some v) : rustFloatGrammar s = true := by
  match s with
  | [] => simp [parseIntIn] at h
  | c :: cs =>
    simp only [parseIntIn] at h
    by_cases hsgn : c = '+' ∨ c = '-'
    · rw [if_pos hsgn] at h
      rcases ho : parseDigits cs with _ | n
      · rw [ho] at h; simp at h
      · rcases parseDigits_grammar cs n ho with ⟨hne, hdig⟩
        show (if c = '+' ∨ c = '-' then floatGrammarBody cs else floatGrammarBody (c :: cs)) = true
        rw [if_pos hsgn]
        unfold floatGrammarBody
        rw [floatNumber_digits cs hne hdig]
        simp
    · rw [if_neg hsgn] at h
      rcases ho : parseDigits (c :: cs) with _ | n
      · rw [ho] at h; simp at h
      · rcases parseDigits_grammar _ n ho with ⟨hne, hdig⟩
        show (if c = '+' ∨ c = '-' then floatGrammarBody cs else floatGrammarBody (c :: cs)) = true
        rw [if_neg hsgn]
        unfold floatGrammarBody
        rw [floatNumber_digits _ hne hdig]
        simp

/-- The standard base64 alphabet: index to character. -/
def b64Char (n : Nat) : Char :=
  if n < 26 then Char.ofNat (65 + n)
  else if n < 52 then Char.ofNat (97 + (n - 26))
  else if n < 62 then Char.ofNat (48 + (n - 52))
  else if n = 62 then '+' else '/'

/-- The standard base64 alphabet: character to index, `none` for
characters outside the alphabet ('=' included). -/
def b64Index? (c : Char) : Option Nat :=
  if 'A' ≤ c ∧ c ≤ 'Z' then some (c.toNat - 65)
  else if 'a' ≤ c ∧ c ≤ 'z' then some (c.toNat - 97 + 26)
  else if isDig c then some (c.toNat - 48 + 52)
  else if c = '+' then some 62
  else if c = '/' then some 63
  else none

/-- `base64::engine::general_purpose::STANDARD.encode`: 3-byte groups
to 4 characters, `=`-padded. -/
def base64encode : List Nat → Str
  | [] => []
  | [a] => [b64Char (a / 4), b64Char (a % 4 * 16), '=', '=']
  | [a, b] => [b64Char (a / 4), b64Char (a % 4 * 16 + b / 16), b64Char (b % 16 * 4), '=']
  | a :: b :: c :: rest =>
    b64Char (a / 4) :: b64Char (a % 4 * 16 + b / 16) :: b64Char (b % 16 * 4 + c / 64)
      :: b64Char (c % 64) :: base64encode rest

/-- `base64::engine::general_purpose::STANDARD.decode`: strict
decoding — the length must be a multiple of four, padding must be
canonical and trailing bits zero, all other characters must be in the
alphabet; any violation is an error (`none`). -/
def base64decode : Str → Option (List Nat)
  | [] => some []
  | c0 :: c1 :: c2 :: c3 :: rest =>
    match b64Index? c0, b64Index? c1 with
    | some i0, some i1 =>
      if c2 = '=' then
        if c3 = '=' ∧ rest = [] ∧ i1 % 16 = 0 then some [i0 * 4 + i1 / 16] else none
      else
        match b64Index? c2 with
        | some i2 =>
          if c3 = '=' then
            if rest = [] ∧ i2 % 4 = 0 then some [i0 * 4 + i1 / 16, i1 % 16 * 16 + i2 / 4]
            else none
          else
            match b64Index? c3, base64decode rest with
            | some i3, some tl =>
              some ((i0 * 4 + i1 / 16) :: (i1 % 16 * 16 + i2 / 4) :: (i2 % 4 * 64 + i3) :: tl)
            | _, _ => none
        | none => none
    | _, _ => none
  | _ => none

theorem b64Index?_b64Char : ∀ n, n < 64 → b64Index? (b64Char n) = some n := by decide

theorem b64Char_ne_pad : ∀ n, n < 64 → b64Char n ≠ '=' := by decide

theorem b64Char_ne_backslash : ∀ n, n < 64 → b64Char n ≠ '\\' := by decide

theorem base64_roundtrip : ∀ l : List Nat, (∀ b ∈ l, b < 256) →
    base64decode (base64encode l) = some l
  | [] => fun _ => rfl
  | [a] => fun h => by
    have ha : a < 256 := h a (by simp)
    show base64decode [b64Char (a / 4), b64Char (a % 4 * 16), '=', '='] = some [a]
    simp only [base64decode, b64Index?_b64Char _ (show a / 4 < 64 by omega),
      b64Index?_b64Char _ (show a % 4 * 16 < 64 by omega)]
    rw [if_pos trivial, if_pos ⟨trivial, trivial, by omega⟩]
    congr 1
    have : a % 4 * 16 / 16 = a % 4 := by omega
    rw [this]
    congr 1
    omega
  | [a, b] => fun h => by
    have ha : a < 256 := h a (by simp)
    have hb : b < 256 := h b (by simp)
    show base64decode [b64Char (a / 4), b64Char (a % 4 * 16 + b / 16), b64Char (b % 16 * 4), '=']
      = some [a, b]
    simp only [base64decode, b64Index?_b64Char _ (show a / 4 < 64 by omega),
      b64Index?_b64Char _ (show a % 4 * 16 + b / 16 < 64 by omega),
      b64Index?_b64Char _ (show b % 16 * 4 < 64 by omega)]
    rw [if_neg (b64Char_ne_pad _ (show b % 16 * 4 < 64 by omega))]
    rw [if_pos trivial, if_pos ⟨trivial, by omega⟩]
    congr 1
    have e1 : a / 4 * 4 + (a % 4 * 16 + b / 16) / 16 = a := by omega
    have e2 : (a % 4 * 16 + b / 16) % 16 * 16 + b % 16 * 4 / 4 = b := by omega
    rw [e1, e2]
  | a :: b :: c :: rest => fun h => by
    have ha : a < 256 := h a (by simp)
    have hb : b < 256 := h b (by simp)
    have hc : c < 256 := h c (by simp)
    have hrest : ∀ x ∈ rest, x < 256 := fun x hx => h x (by simp [hx])
    show base64decode (b64Char (a / 4) :: b64Char (a % 4 * 16 + b / 16)
      :: b64Char (b % 16 * 4 + c / 64) :: b64Char (c % 64) :: base64encode rest)
      = some (a :: b :: c :: rest)
    simp only [base64decode, b64Index?_b64Char _ (show a / 4 < 64 by omega),
      b64Index?_b64Char _ (show a % 4 * 16 + b / 16 < 64 by omega),
      b64Index?_b64Char _ (show b % 16 * 4 + c / 64 < 64 by omega),
      b64Index?_b64Char _ (show c % 64 < 64 by omega)]
    rw [if_neg (b64Char_ne_pad _ (show b % 16 * 4 + c / 64 < 64 by omega))]
    rw [if_neg (b64Char_ne_pad _ (show c % 64 < 64 by omega))]
    rw [base64_roundtrip rest hrest]
    have e1 : a / 4 * 4 + (a % 4 * 16 + b / 16) / 16 = a := by omega
    have e2 : (a % 4 * 16 + b / 16) % 16 * 16 + (b % 16 * 4 + c / 64) / 4 = b := by omega
    have e3 : (b % 16 * 4 + c / 64) % 4 * 64 + c % 64 = c := by omega
    rw [e1, e2]
    show some (a :: b :: ((b % 16 * 4 + c / 64) % 4 * 64 + c % 64) :: rest)
      = some (a :: b :: c :: rest)
    rw [e3]

theorem base64encode_chars : ∀ l : List Nat, (∀ b ∈ l, b < 256) →
    ∀ ch ∈ base64encode l, ch = '=' ∨ ∃ n, n < 64 ∧ ch = b64Char n
  | [] => by intro _ ch hch; simp [base64encode] at hch
  | [a] => fun h ch hch => by
    have ha : a < 256 := h a (by simp)
    simp only [base64encode, List.mem_cons, List.not_mem_nil, or_false] at hch
    rcases hch with rfl | rfl | rfl | rfl
    · exact Or.inr ⟨a / 4, by omega, rfl⟩
    · exact Or.inr ⟨a % 4 * 16, by omega, rfl⟩
    · exact Or.inl rfl
    · exact Or.inl rfl
  | [a, b] => fun h ch hch => by
    have ha : a < 256 := h a (by simp)
    have hb : b < 256 := h b (by simp)
    simp only [base64encode, List.mem_cons, List.not_mem_nil, or_false] at hch
    rcases hch with rfl | rfl | rfl | rfl
    · exact Or.inr ⟨a / 4, by omega, rfl⟩
    · exact Or.inr ⟨a % 4 * 16 + b / 16, by omega, rfl⟩
    · exact Or.inr ⟨b % 16 * 4, by omega, rfl⟩
    · exact Or.inl rfl
  | a :: b :: c :: rest => fun h ch hch => by
    have ha : a < 256 := h a (by simp)
    have hb : b < 256 := h b (by simp)
    have hc : c < 256 := h c (by simp)
    simp only [base64encode, List.mem_cons] at hch
    rcases hch with rfl | rfl | rfl | rfl | h1
    · exact Or.inr ⟨a / 4, by omega, rfl⟩
    · exact Or.inr ⟨a % 4 * 16 + b / 16, by omega, rfl⟩
    · exact Or.inr ⟨b % 16 * 4 + c / 64, by omega, rfl⟩
    · exact Or.inr ⟨c % 64, by omega, rfl⟩
    · exact base64encode_chars rest (fun x hx => h x (by simp [hx])) ch h1

theorem base64encode_no_backslash (l : List Nat) (h : ∀ b ∈ l, b < 256) :
    '\\' ∉ base64encode l := by
  intro hmem
  rcases base64encode_chars l h '\\' hmem with h1 | ⟨n, hn, h1⟩
  · simp at h1
  · exact b64Char_ne_backslash n hn h1.symm

theorem base64encode_ne_nil : ∀ (l : List Nat), l ≠ [] → base64encode l ≠ []
  | [], h => absurd rfl h
  | [_], _ => by simp [base64encode]
  | [_, _], _ => by simp [base64encode]
  | _ :: _ :: _ :: _, _ => by simp [base64encode]

/-- `v as u8` for an `i8` value: the two's-complement byte. -/
def i8ToU8 (v : Int) : Nat := (v % 256).toNat

/-- `b as i8` for a byte: two's-complement reinterpretation. -/
def u8ToI8 (b : Nat) : Int := if b < 128 then (b : Int) else (b : Int) - 256

/-- `i32::to_be_bytes` of the two's-complement representation. -/
def beBytes4 (v : Int) : List Nat :=
  let u := (v % 4294967296).toNat
  [u / 16777216 % 256, u / 65536 % 256, u / 256 % 256, u % 256]

/-- `i32::from_be_bytes`. -/
def beToI32 (b0 b1 b2 b3 : Nat) : Int :=
  let u : Int := (b0 : Int) * 16777216 + (b1 : Int) * 65536 + (b2 : Int) * 256 + (b3 : Int)
  if u < 2147483648 then u else u - 4294967296

/-- `i64::to_be_bytes` of the two's-complement representation. -/
def beBytes8 (v : Int) : List Nat :=
  let u := (v % 18446744073709551616).toNat
  [u / 72057594037927936 % 256, u / 281474976710656 % 256, u / 1099511627776 % 256,
   u / 4294967296 % 256, u / 16777216 % 256, u / 65536 % 256, u / 256 % 256, u % 256]

/-- `i64::from_be_bytes`. -/
def beToI64 (b0 b1 b2 b3 b4 b5 b6 b7 : Nat) : Int :=
  let u : Int := (b0 : Int) * 72057594037927936 + (b1 : Int) * 281474976710656
    + (b2 : Int) * 1099511627776 + (b3 : Int) * 4294967296 + (b4 : Int) * 16777216
    + (b5 : Int) * 65536 + (b6 : Int) * 256 + (b7 : Int)
  if u < 9223372036854775808 then u else u - 18446744073709551616

/-- Rust's `slice::chunks(4)`: groups of four, a shorter final group
if the length is not a multiple of four. -/
def chunks4 : List Nat → List (List Nat)
  | [] => []
  | a :: b :: c :: d :: rest => [a, b, c, d] :: chunks4 rest
  | l => [l]

/-- Rust's `slice::chunks(8)`. -/
def chunks8 : List Nat → List (List Nat)
  | [] => []
  | a :: b :: c :: d :: e :: f :: g :: h :: rest => [a, b, c, d, e, f, g, h] :: chunks8 rest
  | l => [l]

/-- `i32::from_be_bytes([c[0], c[1], c[2], c[3]])` applied to one
chunk: `none` models the index-out-of-bounds panic on a chunk shorter
than four bytes. -/
def i32ChunkVal? : List Nat → Option Int
  | b0 :: b1 :: b2 :: b3 :: _ => some (beToI32 b0 b1 b2 b3)
  | _ => none

/-- `i64::from_be_bytes` applied to one chunk; `none` models the
index-out-of-bounds panic on a chunk shorter than eight bytes. -/
def i64ChunkVal? : List Nat → Option Int
  | b0 :: b1 :: b2 :: b3 :: b4 :: b5 :: b6 :: b7 :: _ =>
    some (beToI64 b0 b1 b2 b3 b4 b5 b6 b7)
  | _ => none

theorem i8ToU8_lt (v : Int) : i8ToU8 v < 256 := by
  unfold i8ToU8
  omega

theorem u8ToI8_i8ToU8 (v : Int) (h1 : -128 ≤ v) (h2 : v < 128) : u8ToI8 (i8ToU8 v) = v := by
  unfold u8ToI8 i8ToU8
  split <;> omega

theorem beBytes4_lt (v : Int) : ∀ b ∈ beBytes4 v, b < 256 := by
  intro b hb
  simp only [beBytes4, List.mem_cons, List.not_mem_nil, or_false] at hb
  rcases hb with rfl | rfl | rfl | rfl <;> omega

theorem beBytes8_lt (v : Int) : ∀ b ∈ beBytes8 v, b < 256 := by
  intro b hb
  simp only [beBytes8, List.mem_cons, List.not_mem_nil, or_false] at hb
  rcases hb with rfl | rfl | rfl | rfl | rfl | rfl | rfl | rfl <;> omega

set_option maxRecDepth 4000 in
theorem beToI32_beBytes4 (v : Int) (h1 : -2147483648 ≤ v) (h2 : v < 2147483648) :
    i32ChunkVal? (beBytes4 v) = some v := by
  simp only [beBytes4, i32ChunkVal?, beToI32]
  split <;> simp only [Option.some.injEq] <;> omega

set_option maxRecDepth 4000 in
theorem beToI64_beBytes8 (v : Int) (h1 : -9223372036854775808 ≤ v)
    (h2 : v < 9223372036854775808) : i64ChunkVal? (beBytes8 v) = some v := by
  simp only [beBytes8, i64ChunkVal?, beToI64]
  split <;> simp only [Option.some.injEq] <;> omega

theorem chunks4_blocks : ∀ blocks : List (List Nat), (∀ b ∈ blocks, b.length = 4) →
    chunks4 blocks.flatten = blocks := by
  intro blocks
  induction blocks with
  | nil => intro _; rfl
  | cons blk rest ih =>
    intro h
    have hlen : blk.length = 4 := h blk (List.mem_cons_self _ _)
    match blk, hlen with
    | [a, b, c, d], _ =>
      show chunks4 (a :: b :: c :: d :: rest.flatten) = _
      rw [chunks4]
      rw [ih (fun x hx => h x (List.mem_cons_of_mem _ hx))]

theorem chunks8_blocks : ∀ blocks : List (List Nat), (∀ b ∈ blocks, b.length = 8) →
    chunks8 blocks.flatten = blocks := by
  intro blocks
  induction blocks with
  | nil => intro _; rfl
  | cons blk rest ih =>
    intro h
    have hlen : blk.length = 8 := h blk (List.mem_cons_self _ _)
    match blk, hlen with
    | [a, b, c, d, e, f, g, k], _ =>
      show chunks8 (a :: b :: c :: d :: e :: f :: g :: k :: rest.flatten) = _
      rw [chunks8]
      rw [ih (fun x hx => h x (List.mem_cons_of_mem _ hx))]

theorem beBytes4_length (v : Int) : (beBytes4 v).length = 4 := rfl

theorem beBytes8_length (v : Int) : (beBytes8 v).length = 8 := rfl

/-- Characters that `core`'s `Display` for floats can emit
(digits, sign, point, exponent `e`, and the letters of `inf`/`NaN`). -/
def floatOutChar (c : Char) : Bool :=
  isDig c || c = '-' || c = '.' || c = 'e' || c = 'i' || c = 'n' || c = 'f' || c = 'N' || c = 'a'

/-- The float operations the codec uses, abstracted: the spec treats
the binary-tag library's scalar formatting as an external contract.
`fmtF32`/`fmtF64` are `format!("{}", v)`, `parseF32` is
`str::parse::<f32>`, `isFinite` decides `serde_json::Number::from_f64`
(which succeeds exactly on finite doubles), and `f64OfInt` is the
lossy `as f64` cast used by serde's `as_f64` on large integers. -/
structure FloatOps (F32 F64 : Type) where
  fmtF32 : F32 → Str
  parseF32 : Str → Option F32
  fmtF64 : F64 → Str
  isFinite : F64 → Bool
  f64OfInt : Int → F64

/-- The documented contract of Rust's float formatting and parsing:
parsing a `Display` output recovers the value, parsing succeeds only
on grammar-conforming strings, and `Display` output is nonempty and
drawn from the float output alphabet. -/
structure FloatLawful {F32 F64 : Type} (ops : FloatOps F32 F64) : Prop where
  parse_fmt : ∀ x, ops.parseF32 (ops.fmtF32 x) = some x
  parse_gram : ∀ s, (ops.parseF32 s).isSome → rustFloatGrammar s = true
  fmt_ne_nil : ∀ x, ops.fmtF32 x ≠ []
  fmt_chars : ∀ x, ∀ c ∈ ops.fmtF32 x, floatOutChar c = true

/-- A degenerate but lawful float model used to instantiate the
abstract theorems on concrete inputs. -/
def trivOps : FloatOps Unit Unit where
  fmtF32 _ := ['0']
  parseF32 s := if s = ['0'] then some () else none
  fmtF64 _ := ['0']
  isFinite _ := true
  f64OfInt _ := ()

theorem trivOps_lawful : FloatLawful trivOps := by
  constructor
  · intro x; rfl
  · intro s h
    by_cases hs : s = ['0']
    · subst hs; decide
    · simp [trivOps, hs] at h
  · intro x; simp [trivOps]
  · intro x c hc
    simp [trivOps] at hc
    subst hc; decide

mutual
/-- `fastnbt::Value`, mutually with the payload lists of `List` and
`Compound`.  A `HashMap` compound is carried as its entry list; the
source's map operations become entry-list operations. -/
inductive Value (F32 F64 : Type) where
  | byte (v : Int)
  | short (v : Int)
  | int (v : Int)
  | long (v : Int)
  | float (v : F32)
  | double (v : F64)
  | string (s : Str)
  | byteArray (arr : List Int)
  | intArray (arr : List Int)
  | longArray (arr : List Int)
  | list (l : VList F32 F64)
  | compound (m : VComp F32 F64)
  deriving DecidableEq
inductive VList (F32 F64 : Type) where
  | nil
  | cons (hd : Value F32 F64) (tl : VList F32 F64)
  deriving DecidableEq
inductive VComp (F32 F64 : Type) where
  | nil
  | cons (k : Str) (v : Value F32 F64) (tl : VComp F32 F64)
  deriving DecidableEq
end

/-- `serde_json::Number` without the `arbitrary_precision` feature:
an integer (`PosInt`/`NegInt`, hence `-(2^63) ≤ i < 2^64`) or an `f64`. -/
inductive JsonNum (F64 : Type) where
  | int (i : Int)
  | float (f : F64)
  deriving DecidableEq

mutual
/-- `serde_json::Value`, mutually with its array and object payloads;
a `serde_json::Map` object is carried as its entry list. -/
inductive Json (F64 : Type) where
  | null
  | bool (b : Bool)
  | num (n : JsonNum F64)
  | str (s : Str)
  | arr (a : JArr F64)
  | obj (o : JObj F64)
  deriving DecidableEq
inductive JArr (F64 : Type) where
  | nil
  | cons (hd : Json F64) (tl : JArr F64)
  deriving DecidableEq
inductive JObj (F64 : Type) where
  | nil
  | cons (k : Str) (v : Json F64) (tl : JObj F64)
  deriving DecidableEq
end

/-- `serde_json::Number::as_i64`: integers in `i64` range only
(a `PosInt` above `i64::MAX` and every float report `None`). -/
def JsonNum.asI64 {F64 : Type} : JsonNum F64 → Option Int
  | .int i => if -9223372036854775808 ≤ i ∧ i < 9223372036854775808 then some i else none
  | .float _ => none

/-- `serde_json::Number::as_f64`: total on every serde number — a
stored float is returned as is, an integer is cast with `as f64`. -/
def JsonNum.asF64? {F32 F64 : Type} (ops : FloatOps F32 F64) : JsonNum F64 → Option F64
  | .int i => some (ops.f64OfInt i)
  | .float f => some f

/-- `"\\0".ends_with` check: the string ends in backslash-zero. -/
def endsWithEsc (s : Str) : Bool :=
  match s.reverse with
  | '0' :: '\\' :: _ => true
  | _ => false

/-- `is_type_like_string` (src/nbt_json.rs): does a literal string
look like one of the codec's marker encodings?  The source's
`s.len() < 2` and `s.len() > 2` are UTF-8 byte lengths and
`s.as_bytes()[0..2]` are raw bytes; because every character those
tests can accept is one-byte ASCII, the character-level conditions
used here are extensionally equal. -/
def is_type_like_string (s : Str) : Bool :=
  if s.length < 2 then false
  else
    (match s.getLast? with
     | some last =>
       if last = 'b' ∨ last = 's' ∨ last = 'L' ∨ last = 'f' then rustFloatGrammar s.dropLast
       else false
     | none => false)
    ||
    (match s with
     | c0 :: ';' :: _ :: _ => decide (c0 = 'B' ∨ c0 = 'I' ∨ c0 = 'L')
     | _ => false)

section Codec

variable {F32 F64 : Type} (ops : FloatOps F32 F64)

/-- Errors of `json_to_nbt`: a propagated `base64::decode` error
(the `?` in `parse_string_value`), or a panic (index out of bounds
while rebuilding array elements from chunks). -/
inductive NbtErr where
  | b64Err
  | panic
  deriving DecidableEq

mutual
/-- `nbt_to_json` (src/nbt_json.rs): encode a tag value as JSON. -/
def nbt_to_json : Value F32 F64 → Json F64
  | .byte v => .str (fmtInt v ++ ['b'])
  | .short v => .str (fmtInt v ++ ['s'])
  | .int v => .num (.int v)
  | .long v => .str (fmtInt v ++ ['L'])
  | .float v => .str (ops.fmtF32 v ++ ['f'])
  | .double v =>
    if ops.isFinite v then .num (.float v) else .str (ops.fmtF64 v ++ ['d'])
  | .string s =>
    if is_type_like_string s then .str (s ++ ['\\', '0']) else .str s
  | .byteArray arr => .str ('B' :: ';' :: base64encode (arr.map i8ToU8))
  | .intArray arr => .str ('I' :: ';' :: base64encode (arr.map beBytes4).flatten)
  | .longArray arr => .str ('L' :: ';' :: base64encode (arr.map beBytes8).flatten)
  | .list .nil => .obj (.cons ['[', ']'] (.str ['E', 'n', 'd']) .nil)
  | .list (.cons h t) => .arr (vlistToJson (.cons h t))
  | .compound m => .obj (vcompToJson m)
/-- Elementwise encoding of a nonempty tag list. -/
def vlistToJson : VList F32 F64 → JArr F64
  | .nil => .nil
  | .cons h t => .cons (nbt_to_json h) (vlistToJson t)
/-- Entrywise encoding of a compound. -/
def vcompToJson : VComp F32 F64 → JObj F64
  | .nil => .nil
  | .cons k v t => .cons k (nbt_to_json v) (vcompToJson t)
end

/-- The numeric-suffix fall-through of `parse_string_value`
(src/nbt_json.rs lines 166-197): inspect the last character, try the
matching integer/float parse, and fall back to a plain string. -/
def suffixDecode (s : Str) : Except NbtErr (Value F32 F64) :=
  match s.getLast? with
  | some last =>
    if last = 'b' then
      match parseI8 s.dropLast with
      | some v => .ok (.byte v)
      | none => .ok (.string s)
    else if last = 's' then
      match parseI16 s.dropLast with
      | some v => .ok (.short v)
      | none => .ok (.string s)
    else if last = 'L' then
      match parseI64 s.dropLast with
      | some v => .ok (.long v)
      | none => .ok (.string s)
    else if last = 'f' then
      match ops.parseF32 s.dropLast with
      | some v => .ok (.float v)
      | none => .ok (.string s)
    else .ok (.string s)
  | none => .ok (.string s)

/-- `parse_string_value` (src/nbt_json.rs): escape marker first, then
the array-marker branch (whose base64 failure propagates as an error
and whose chunked element rebuild can panic), then numeric suffixes,
then plain string.  The `s.len() > 2 && s.as_bytes().get(1) ==
Some(&b';')` test forces the first character to be one-byte ASCII,
which the character-level guard makes explicit. -/
def parse_string_value (s : Str) : Except NbtErr (Value F32 F64) :=
  if endsWithEsc s then .ok (.string s.dropLast.dropLast)
  else
    match s with
    | c0 :: ';' :: c2 :: rest =>
      if c0.toNat < 128 then
        match base64decode (c2 :: rest) with
        | none => .error .b64Err
        | some bytes =>
          if c0 = 'B' then .ok (.byteArray (bytes.map u8ToI8))
          else if c0 = 'I' then
            match (chunks4 bytes).mapM i32ChunkVal? with
            | some arr => .ok (.intArray arr)
            | none => .error .panic
          else if c0 = 'L' then
            match (chunks8 bytes).mapM i64ChunkVal? with
            | some arr => .ok (.longArray arr)
            | none => .error .panic
          else suffixDecode ops s
      else suffixDecode ops s
    | _ => suffixDecode ops s

instance exceptDecEq {e a : Type} [DecidableEq e] [DecidableEq a] : DecidableEq (Except e a) :=
  fun x y =>
    match x, y with
    | .error u, .error v =>
      if h : u = v then .isTrue (by rw [h]) else .isFalse (by intro he; cases he; exact h rfl)
    | .error _, .ok _ => .isFalse (by intro h; cases h)
    | .ok _, .error _ => .isFalse (by intro h; cases h)
    | .ok u, .ok v =>
      if h : u = v then .isTrue (by rw [h]) else .isFalse (by intro he; cases he; exact h rfl)

/-- Length of an object's entry list (`serde_json::Map::len`). -/
def objLen {F64 : Type} : JObj F64 → Nat
  | .nil => 0
  | .cons _ _ t => 1 + objLen t

/-- `serde_json::Map::contains_key`. -/
def objHasKey {F64 : Type} : JObj F64 → Str → Bool
  | .nil, _ => false
  | .cons k _ t, key => k = key || objHasKey t key

mutual
/-- `json_to_nbt` (src/nbt_json.rs): decode a JSON value back to a
tag value. -/
def json_to_nbt : Json F64 → Except NbtErr (Value F32 F64)
  | .obj o =>
    if objLen o = 1 ∧ objHasKey o ['[', ']'] then .ok (.list .nil)
    else
      match jobjToNbt o with
      | .ok m => .ok (.compound m)
      | .error e => .error e
  | .arr a =>
    match jarrToNbt a with
    | .ok l => .ok (.list l)
    | .error e => .error e
  | .str s => parse_string_value ops s
  | .num n =>
    match n.asI64 with
    | some i =>
      if -2147483648 ≤ i ∧ i ≤ 2147483647 then .ok (.int i) else .ok (.long i)
    | none =>
      match n.asF64? ops with
      | some f => .ok (.double f)
      | none => .ok (.int 0)
  | .bool b => .ok (.byte (if b then 1 else 0))
  | .null => .ok (.byte 0)
/-- Elementwise decoding of a JSON array (first error wins, as in
`collect::<Result<_>>`). -/
def jarrToNbt : JArr F64 → Except NbtErr (VList F32 F64)
  | .nil => .ok .nil
  | .cons h t =>
    match json_to_nbt h with
    | .error e => .error e
    | .ok v =>
      match jarrToNbt t with
      | .error e => .error e
      | .ok tl => .ok (.cons v tl)
/-- Entrywise decoding of a JSON object into a compound entry list. -/
def jobjToNbt : JObj F64 → Except NbtErr (VComp F32 F64)
  | .nil => .ok .nil
  | .cons k v t =>
    match json_to_nbt v with
    | .error e => .error e
    | .ok w =>
      match jobjToNbt t with
      | .error e => .error e
      | .ok tl => .ok (.cons k w tl)
end

end Codec

/-- A string on which the decoder chain is the inverse of the encoder:
either the encoder escapes it (type-like), or it does not end in the
escape marker and, if the decoder's array branch fires on it, its
base64 payload is well-formed (otherwise `json_to_nbt` errors or
strips characters the encoder never added). -/
def arrayShapeOk (s : Str) : Bool :=
  match s with
  | c0 :: ';' :: c2 :: rest =>
    if c0.toNat < 128 then (base64decode (c2 :: rest)).isSome else true
  | _ => true

def safeString (s : Str) : Bool :=
  is_type_like_string s || (!endsWithEsc s && arrayShapeOk s)

/-- Entry count of a compound's entry list. -/
def compLen {F32 F64 : Type} : VComp F32 F64 → Nat
  | .nil => 0
  | .cons _ _ t => 1 + compLen t

/-- Key membership in a compound's entry list. -/
def compHasKey {F32 F64 : Type} : VComp F32 F64 → Str → Bool
  | .nil, _ => false
  | .cons k _ t, key => k = key || compHasKey t key

section Wf

variable {F32 F64 : Type} (ops : FloatOps F32 F64)

mutual
/-- Values on which the claimed round trip can hold: integer payloads
within their machine widths (an invariant of the Rust types), finite
doubles, safe strings, nonempty arrays with in-range elements, and no
compound consisting of exactly the key `"[]"` (which the decoder
necessarily misreads as the empty-list sentinel). -/
def wfValue : Value F32 F64 → Bool
  | .byte v => decide (-128 ≤ v ∧ v < 128)
  | .short v => decide (-32768 ≤ v ∧ v < 32768)
  | .int v => decide (-2147483648 ≤ v ∧ v < 2147483648)
  | .long v => decide (-9223372036854775808 ≤ v ∧ v < 9223372036854775808)
  | .float _ => true
  | .double d => ops.isFinite d
  | .string s => safeString s
  | .byteArray arr => !arr.isEmpty && arr.all (fun v => decide (-128 ≤ v ∧ v < 128))
  | .intArray arr => !arr.isEmpty && arr.all (fun v => decide (-2147483648 ≤ v ∧ v < 2147483648))
  | .longArray arr =>
    !arr.isEmpty
      && arr.all (fun v => decide (-9223372036854775808 ≤ v ∧ v < 9223372036854775808))
  | .list l => wfVList l
  | .compound m =>
    !(decide (compLen m = 1) && compHasKey m ['[', ']']) && wfVComp m
def wfVList : VList F32 F64 → Bool
  | .nil => true
  | .cons h t => wfValue h && wfVList t
def wfVComp : VComp F32 F64 → Bool
  | .nil => true
  | .cons _ v t => wfValue v && wfVComp t
end

end Wf

theorem endsWithEsc_append_esc (s : Str) : endsWithEsc (s ++ ['\\', '0']) = true := by
  unfold endsWithEsc
  rw [List.reverse_append]
  rfl

theorem dropLast2_append_esc (s : Str) : (s ++ ['\\', '0']).dropLast.dropLast = s := by
  have h : s ++ ['\\', '0'] = (s ++ ['\\']) ++ ['0'] := by simp
  rw [h, List.dropLast_concat, List.dropLast_concat]

theorem getLast?_concat_eq {a : Type} (t : List a) (c : a) : (t ++ [c]).getLast? = some c := by
  have hrev : (t ++ [c]).reverse = c :: t.reverse := by simp
  rw [← List.head?_reverse, hrev]
  rfl

theorem endsWithEsc_eq_true {s : Str} (h : endsWithEsc s = true) : ∃ t, s = t ++ ['\\', '0'] := by
  unfold endsWithEsc at h
  split at h
  · rename_i cs heq
    refine ⟨cs.reverse, ?_⟩
    have h2 := congrArg List.reverse heq
    simpa using h2
  · cases h

theorem endsWithEsc_no_backslash {s : Str} (h : '\\' ∉ s) : endsWithEsc s = false := by
  by_contra hne
  have htrue : endsWithEsc s = true := by revert hne; cases endsWithEsc s <;> simp
  rcases endsWithEsc_eq_true htrue with ⟨t, rfl⟩
  exact h (by simp)

theorem endsWithEsc_last {s : Str} {c : Char} (hl : s.getLast? = some c) (hc : c ≠ '0') :
    endsWithEsc s = false := by
  by_contra hne
  have htrue : endsWithEsc s = true := by revert hne; cases endsWithEsc s <;> simp
  rcases endsWithEsc_eq_true htrue with ⟨t, rfl⟩
  rw [show t ++ ['\\', '0'] = (t ++ ['\\']) ++ ['0'] by simp, getLast?_concat_eq] at hl
  have hi : some c = some '0' := hl.symm.trans rfl
  exact hc (Option.some.inj hi)

theorem append_single_ne_semi_shape (t : Str) (suf : Char)
    (ht : ∀ d ∈ t, d ≠ ';') :
    ∀ c0 c2 rest, t ++ [suf] ≠ c0 :: ';' :: c2 :: rest := by
  intro c0 c2 rest heq
  rcases t with _ | ⟨d0, t1⟩
  · simp at heq
  · rcases t1 with _ | ⟨d1, t2⟩
    · simp at heq
    · simp at heq
      exact ht d1 (by simp) heq.2.1

section CodecLemmas

variable {F32 F64 : Type} (ops : FloatOps F32 F64)

theorem parse_string_value_fallthrough (s : Str)
    (hesc : endsWithEsc s = false)
    (hshape : ∀ c0 c2 rest, s ≠ c0 :: ';' :: c2 :: rest) :
    parse_string_value ops s = suffixDecode ops s := by
  unfold parse_string_value
  rw [if_neg (by simp [hesc])]
  split
  · exact absurd rfl (hshape _ _ _)
  · rfl

theorem suffixDecode_byte (t : Str) (v : Int) (hp : parseI8 t = some v) :
    suffixDecode ops (t ++ ['b']) = .ok (.byte v) := by
  unfold suffixDecode
  rw [getLast?_concat_eq, List.dropLast_concat]
  simp [hp]

theorem suffixDecode_short (t : Str) (v : Int) (hp : parseI16 t = some v) :
    suffixDecode ops (t ++ ['s']) = .ok (.short v) := by
  unfold suffixDecode
  rw [getLast?_concat_eq, List.dropLast_concat]
  simp [hp]

theorem suffixDecode_long (t : Str) (v : Int) (hp : parseI64 t = some v) :
    suffixDecode ops (t ++ ['L']) = .ok (.long v) := by
  unfold suffixDecode
  rw [getLast?_concat_eq, List.dropLast_concat]
  simp [hp]

theorem suffixDecode_float (t : Str) (v : F32) (hp : ops.parseF32 t = some v) :
    suffixDecode ops (t ++ ['f']) = .ok (.float v) := by
  unfold suffixDecode
  rw [getLast?_concat_eq, List.dropLast_concat]
  simp [hp]

end CodecLemmas

theorem isDig_ne_semi {c : Char} (h : isDig c = true) : c ≠ ';' := by
  intro he; subst he; simp [isDig] at h

theorem isDig_ne_backslash {c : Char} (h : isDig c = true) : c ≠ '\\' := by
  intro he; subst he; simp [isDig] at h

theorem fmtInt_no_semi (v : Int) : ∀ c ∈ fmtInt v, c ≠ ';' := by
  intro c hc
  rcases fmtInt_chars v c hc with h | h
  · exact isDig_ne_semi h
  · subst h; decide

theorem fmtInt_no_backslash (v : Int) : '\\' ∉ fmtInt v := by
  intro hc
  rcases fmtInt_chars v '\\' hc with h | h
  · simp [isDig] at h
  · cases h

theorem floatOutChar_ne_semi {c : Char} (h : floatOutChar c = true) : c ≠ ';' := by
  intro he; subst he; simp [floatOutChar, isDig] at h

theorem floatOutChar_ne_backslash {c : Char} (h : floatOutChar c = true) : c ≠ '\\' := by
  intro he; subst he; simp [floatOutChar, isDig] at h

theorem is_type_like_of_shape (c0 c2 : Char) (rest : Str)
    (h : c0 = 'B' ∨ c0 = 'I' ∨ c0 = 'L') :
    is_type_like_string (c0 :: ';' :: c2 :: rest) = true := by
  unfold is_type_like_string
  rw [if_neg (by simp)]
  apply Bool.or_eq_true_iff.2
  right
  simpa using h

theorem is_type_like_of_suffix (s : Str) (c : Char)
    (hlen : 2 ≤ s.length) (hlast : s.getLast? = some c)
    (hc : c = 'b' ∨ c = 's' ∨ c = 'L' ∨ c = 'f')
    (hg : rustFloatGrammar s.dropLast = true) :
    is_type_like_string s = true := by
  unfold is_type_like_string
  rw [if_neg (by omega)]
  apply Bool.or_eq_true_iff.2
  left
  rw [hlast]
  simp only [if_pos hc]
  exact hg

theorem shape_not_BIL_of_not_type_like (c0 c2 : Char) (rest : Str)
    (h : is_type_like_string (c0 :: ';' :: c2 :: rest) = false) :
    ¬(c0 = 'B' ∨ c0 = 'I' ∨ c0 = 'L') := by
  intro hb
  rw [is_type_like_of_shape c0 c2 rest hb] at h
  cases h

theorem not_suffix_grammar_of_not_type_like (s : Str) (c : Char)
    (hlast : s.getLast? = some c)
    (hc : c = 'b' ∨ c = 's' ∨ c = 'L' ∨ c = 'f')
    (hd : s.dropLast ≠ [])
    (h : is_type_like_string s = false) :
    rustFloatGrammar s.dropLast = false := by
  by_contra hg
  have hg' : rustFloatGrammar s.dropLast = true := by
    revert hg; cases rustFloatGrammar s.dropLast <;> simp
  have hlen : 2 ≤ s.length := by
    have h1 : s.dropLast.length = s.length - 1 := List.length_dropLast s
    have h2 : 1 ≤ s.dropLast.length := List.length_pos.2 hd
    have h3 : s ≠ [] := by
      intro he; subst he; simp at hlast
    have h4 : 1 ≤ s.length := List.length_pos.2 h3
    omega
  rw [is_type_like_of_suffix s c hlen hlast hc hg'] at h
  cases h

section CodecLemmas2

variable {F32 F64 : Type} (ops : FloatOps F32 F64)

theorem psv_escaped (s : Str) :
    parse_string_value ops (s ++ ['\\', '0']) = .ok (.string s) := by
  unfold parse_string_value
  rw [if_pos (by simp [endsWithEsc_append_esc])]
  rw [dropLast2_append_esc]

theorem suffixDecode_plain (hl : FloatLawful ops) (s : Str)
    (hnt : is_type_like_string s = false) :
    suffixDecode ops s = .ok (.string s) := by
  unfold suffixDecode
  rcases hlast : s.getLast? with _ | c
  · rfl
  · have key : ∀ (lo hi : Int), (c = 'b' ∨ c = 's' ∨ c = 'L' ∨ c = 'f') →
        parseIntIn lo hi s.dropLast = none := by
      intro lo hi hc
      rcases hp : parseIntIn lo hi s.dropLast with _ | v
      · rfl
      · exfalso
        have hg := parseIntIn_grammar lo hi _ v hp
        have hdne : s.dropLast ≠ [] := by
          intro he
          rw [he] at hp
          simp [parseIntIn] at hp
        rw [not_suffix_grammar_of_not_type_like s c hlast hc hdne hnt] at hg
        cases hg
    have keyF : (c = 'b' ∨ c = 's' ∨ c = 'L' ∨ c = 'f') → ops.parseF32 s.dropLast = none := by
      intro hc
      rcases hp : ops.parseF32 s.dropLast with _ | v
      · rfl
      · exfalso
        have hg := hl.parse_gram s.dropLast (by rw [hp]; rfl)
        have hdne : s.dropLast ≠ [] := by
          intro he
          rw [he] at hg
          simp [rustFloatGrammar] at hg
        rw [not_suffix_grammar_of_not_type_like s c hlast hc hdne hnt] at hg
        cases hg
    by_cases hb : c = 'b'
    · subst hb
      simp [parseI8, key (-128) 127 (Or.inl rfl)]
    · by_cases hs : c = 's'
      · subst hs
        simp [hb, parseI16, key (-32768) 32767 (Or.inr (Or.inl rfl))]
      · by_cases hL : c = 'L'
        · subst hL
          simp [hb, hs, parseI64,
            key (-9223372036854775808) 9223372036854775807 (Or.inr (Or.inr (Or.inl rfl)))]
        · by_cases hf : c = 'f'
          · subst hf
            simp [hb, hs, hL, keyF (Or.inr (Or.inr (Or.inr rfl)))]
          · simp [hb, hs, hL, hf]

end CodecLemmas2

section CodecLemmas3

variable {F32 F64 : Type} (ops : FloatOps F32 F64)

theorem psv_plain (hl : FloatLawful ops) (s : Str)
    (hnt : is_type_like_string s = false) (hsafe : safeString s = true) :
    parse_string_value ops s = .ok (.string s) := by
  rw [safeString, hnt] at hsafe
  simp only [Bool.false_or, Bool.and_eq_true, Bool.not_eq_true'] at hsafe
  rcases hsafe with ⟨hesc, hshape⟩
  unfold parse_string_value
  rw [if_neg (by simp [hesc])]
  split
  · rename_i c0 c2 rest
    by_cases hascii : c0.toNat < 128
    · rw [if_pos hascii]
      simp only [arrayShapeOk, if_pos hascii] at hshape
      rcases hb : base64decode (c2 :: rest) with _ | bytes
      · simp [hb] at hshape
      · have hBIL := shape_not_BIL_of_not_type_like c0 c2 rest hnt
        have h1 : ¬c0 = 'B' := fun h => hBIL (Or.inl h)
        have h2 : ¬c0 = 'I' := fun h => hBIL (Or.inr (Or.inl h))
        have h3 : ¬c0 = 'L' := fun h => hBIL (Or.inr (Or.inr h))
        simp only [h1, h2, h3, if_false]
        exact suffixDecode_plain ops hl _ hnt
    · rw [if_neg hascii]
      exact suffixDecode_plain ops hl _ hnt
  · exact suffixDecode_plain ops hl _ hnt

end CodecLemmas3

theorem map_u8_roundtrip (arr : List Int) (hr : ∀ v ∈ arr, -128 ≤ v ∧ v < 128) :
    (arr.map i8ToU8).map u8ToI8 = arr := by
  induction arr with
  | nil => rfl
  | cons a t ih =>
    simp only [List.map_cons]
    rw [u8ToI8_i8ToU8 a (hr a (List.mem_cons_self a t)).1 (hr a (List.mem_cons_self a t)).2,
      ih (fun v hv => hr v (List.mem_cons_of_mem a hv))]

theorem mapM_beBytes4 (arr : List Int)
    (hr : ∀ v ∈ arr, -2147483648 ≤ v ∧ v < 2147483648) :
    (arr.map beBytes4).mapM i32ChunkVal? = some arr := by
  induction arr with
  | nil => rfl
  | cons a t ih =>
    simp only [List.map_cons, List.mapM_cons]
    rw [beToI32_beBytes4 a (hr a (List.mem_cons_self a t)).1 (hr a (List.mem_cons_self a t)).2,
      ih (fun v hv => hr v (List.mem_cons_of_mem a hv))]
    rfl

theorem mapM_beBytes8 (arr : List Int)
    (hr : ∀ v ∈ arr, -9223372036854775808 ≤ v ∧ v < 9223372036854775808) :
    (arr.map beBytes8).mapM i64ChunkVal? = some arr := by
  induction arr with
  | nil => rfl
  | cons a t ih =>
    simp only [List.map_cons, List.mapM_cons]
    rw [beToI64_beBytes8 a (hr a (List.mem_cons_self a t)).1 (hr a (List.mem_cons_self a t)).2,
      ih (fun v hv => hr v (List.mem_cons_of_mem a hv))]
    rfl

theorem flatten_bytes_lt {f : Int → List Nat} (arr : List Int)
    (hf : ∀ v, ∀ b ∈ f v, b < 256) : ∀ b ∈ (arr.map f).flatten, b < 256 := by
  intro b hb
  rcases List.mem_flatten.1 hb with ⟨blk, hblk, hbmem⟩
  rcases List.mem_map.1 hblk with ⟨v, _, rfl⟩
  exact hf v b hbmem

section CodecLemmas4

variable {F32 F64 : Type} (ops : FloatOps F32 F64)

theorem psv_marker (c0 : Char) (hascii : c0.toNat < 128) (hc0 : c0 ≠ '\\')
    (payload : List Nat)
    (hbl : ∀ b ∈ payload, b < 256) (hne : payload ≠ []) :
    parse_string_value ops (c0 :: ';' :: base64encode payload)
      = (match base64decode (base64encode payload) with
         | none => Except.error NbtErr.b64Err
         | some bytes =>
           if c0 = 'B' then .ok (.byteArray (bytes.map u8ToI8))
           else if c0 = 'I' then
             match (chunks4 bytes).mapM i32ChunkVal? with
             | some arr => .ok (.intArray arr)
             | none => .error .panic
           else if c0 = 'L' then
             match (chunks8 bytes).mapM i64ChunkVal? with
             | some arr => .ok (.longArray arr)
             | none => .error .panic
           else suffixDecode ops (c0 :: ';' :: base64encode payload)) := by
  have hence := base64encode_ne_nil _ hne
  obtain ⟨e0, erest, hE⟩ := List.exists_cons_of_ne_nil hence
  unfold parse_string_value
  rw [if_neg ?hesc]
  case hesc =>
    have hnb2 : '\\' ∉ (c0 :: ';' :: base64encode payload) := by
      intro hmem
      rcases List.mem_cons.1 hmem with h | h
      · exact hc0 h.symm
      · rcases List.mem_cons.1 h with h2 | h2
        · cases h2
        · exact base64encode_no_backslash payload hbl h2
    simp [endsWithEsc_no_backslash hnb2]
  rw [hE]
  split
  · rename_i heq
    -- the pattern c0' :: ';' :: c2 :: rest matched our literal shape
    injection heq with h1 heq2
    injection heq2 with h2 heq3
    injection heq3 with h3 h4
    subst h1
    subst h3
    subst h4
    rw [if_pos hascii, ← hE]
  · rename_i hno
    exact absurd rfl (hno c0 e0 erest)

section RoundTrip

variable {F32 F64 : Type} (ops : FloatOps F32 F64)

theorem vcomp_objLen : ∀ m : VComp F32 F64, objLen (vcompToJson ops m) = compLen m
  | .nil => rfl
  | .cons k v t => by
    simp only [vcompToJson, objLen, compLen]
    rw [vcomp_objLen t]

theorem vcomp_objHasKey : ∀ (m : VComp F32 F64) (key : Str),
    objHasKey (vcompToJson ops m) key = compHasKey m key
  | .nil, _ => rfl
  | .cons k v t, key => by
    simp only [vcompToJson, objHasKey, compHasKey]
    rw [vcomp_objHasKey t key]

mutual
/-- Decoding inverts encoding on well-formed tag values. -/
theorem nbt_json_roundtrip (hl : FloatLawful ops) :
    ∀ v : Value F32 F64, wfValue ops v = true →
      json_to_nbt ops (nbt_to_json ops v) = .ok v
  | .byte v, h => by
    have hr : -128 ≤ v ∧ v < 128 := by simpa [wfValue] using h
    show parse_string_value ops (fmtInt v ++ ['b']) = .ok (.byte v)
    rw [parse_string_value_fallthrough ops _
      (endsWithEsc_last (getLast?_concat_eq _ _) (by decide))
      (append_single_ne_semi_shape _ _ (fmtInt_no_semi v))]
    exact suffixDecode_byte ops _ v (parseIntIn_fmtInt _ _ v (by omega) (by omega))
  | .short v, h => by
    have hr : -32768 ≤ v ∧ v < 32768 := by simpa [wfValue] using h
    show parse_string_value ops (fmtInt v ++ ['s']) = .ok (.short v)
    rw [parse_string_value_fallthrough ops _
      (endsWithEsc_last (getLast?_concat_eq _ _) (by decide))
      (append_single_ne_semi_shape _ _ (fmtInt_no_semi v))]
    exact suffixDecode_short ops _ v (parseIntIn_fmtInt _ _ v (by omega) (by omega))
  | .long v, h => by
    have hr : -9223372036854775808 ≤ v ∧ v < 9223372036854775808 := by
      simpa [wfValue] using h
    show parse_string_value ops (fmtInt v ++ ['L']) = .ok (.long v)
    rw [parse_string_value_fallthrough ops _
      (endsWithEsc_last (getLast?_concat_eq _ _) (by decide))
      (append_single_ne_semi_shape _ _ (fmtInt_no_semi v))]
    exact suffixDecode_long ops _ v (parseIntIn_fmtInt _ _ v (by omega) (by omega))
  | .int v, h => by
    have hr : -2147483648 ≤ v ∧ v < 2147483648 := by simpa [wfValue] using h
    show json_to_nbt ops (.num (.int v)) = .ok (.int v)
    simp only [json_to_nbt, JsonNum.asI64]
    rw [if_pos (by omega : -9223372036854775808 ≤ v ∧ v < 9223372036854775808)]
    simp only [if_pos (by omega : -2147483648 ≤ v ∧ v ≤ 2147483647)]
  | .float x, h => by
    show parse_string_value ops (ops.fmtF32 x ++ ['f']) = .ok (.float x)
    rw [parse_string_value_fallthrough ops _
      (endsWithEsc_last (getLast?_concat_eq _ _) (by decide))
      (append_single_ne_semi_shape _ _
        (fun d hd => floatOutChar_ne_semi (hl.fmt_chars x d hd)))]
    exact suffixDecode_float ops _ x (hl.parse_fmt x)
  | .double d, h => by
    have hf : ops.isFinite d = true := by simpa [wfValue] using h
    show json_to_nbt ops (nbt_to_json ops (.double d)) = _
    have henc : nbt_to_json ops (.double d) = .num (.float d) := by
      simp [nbt_to_json, hf]
    rw [henc]
    rfl
  | .string s, h => by
    have hsafe : safeString s = true := by simpa [wfValue] using h
    by_cases ht : is_type_like_string s = true
    · have henc : nbt_to_json ops (.string s) = .str (s ++ ['\\', '0']) := by
        simp [nbt_to_json, ht]
      show json_to_nbt ops (nbt_to_json ops (.string s)) = _
      rw [henc]
      exact psv_escaped ops s
    · have ht' : is_type_like_string s = false := by
        revert ht; cases is_type_like_string s <;> simp
      have henc : nbt_to_json ops (.string s) = .str s := by
        simp [nbt_to_json, ht']
      show json_to_nbt ops (nbt_to_json ops (.string s)) = _
      rw [henc]
      exact psv_plain ops hl s ht' hsafe
  | .byteArray arr, h => by
    have hw : arr ≠ [] ∧ ∀ v ∈ arr, -128 ≤ v ∧ v < 128 := by
      simpa [wfValue, List.all_eq_true, List.isEmpty_iff] using h
    have hbl : ∀ b ∈ arr.map i8ToU8, b < 256 := by
      intro b hb
      rcases List.mem_map.1 hb with ⟨v, _, rfl⟩
      exact i8ToU8_lt v
    have hmapne : arr.map i8ToU8 ≠ [] := by simpa using hw.1
    show parse_string_value ops ('B' :: ';' :: base64encode (arr.map i8ToU8))
      = .ok (.byteArray arr)
    rw [psv_marker ops 'B' (by decide) (by decide) _ hbl hmapne]
    rw [base64_roundtrip _ hbl]
    show Except.ok (Value.byteArray ((arr.map i8ToU8).map u8ToI8))
      = Except.ok (Value.byteArray arr)
    rw [map_u8_roundtrip arr hw.2]
  | .intArray arr, h => by
    have hw : arr ≠ [] ∧ ∀ v ∈ arr, -2147483648 ≤ v ∧ v < 2147483648 := by
      simpa [wfValue, List.all_eq_true, List.isEmpty_iff] using h
    have hbl : ∀ b ∈ (arr.map beBytes4).flatten, b < 256 :=
      flatten_bytes_lt arr beBytes4_lt
    have hne : (arr.map beBytes4).flatten ≠ [] := by
      rcases arr with _ | ⟨a, t⟩
      · exact absurd rfl hw.1
      · show (beBytes4 a ++ (t.map beBytes4).flatten) ≠ []
        simp [beBytes4]
    show parse_string_value ops ('I' :: ';' :: base64encode (arr.map beBytes4).flatten)
      = .ok (.intArray arr)
    rw [psv_marker ops 'I' (by decide) (by decide) _ hbl hne]
    rw [base64_roundtrip _ hbl]
    show (match (chunks4 (arr.map beBytes4).flatten).mapM i32ChunkVal? with
          | some a => Except.ok (Value.intArray a)
          | none => Except.error NbtErr.panic)
      = Except.ok (Value.intArray arr)
    rw [chunks4_blocks _ (by
      intro b hb
      rcases List.mem_map.1 hb with ⟨v, _, rfl⟩
      exact beBytes4_length v)]
    rw [mapM_beBytes4 arr hw.2]
  | .longArray arr, h => by
    have hw : arr ≠ [] ∧ ∀ v ∈ arr,
        -9223372036854775808 ≤ v ∧ v < 9223372036854775808 := by
      simpa [wfValue, List.all_eq_true, List.isEmpty_iff] using h
    have hbl : ∀ b ∈ (arr.map beBytes8).flatten, b < 256 :=
      flatten_bytes_lt arr beBytes8_lt
    have hne : (arr.map beBytes8).flatten ≠ [] := by
      rcases arr with _ | ⟨a, t⟩
      · exact absurd rfl hw.1
      · show (beBytes8 a ++ (t.map beBytes8).flatten) ≠ []
        simp [beBytes8]
    show parse_string_value ops ('L' :: ';' :: base64encode (arr.map beBytes8).flatten)
      = .ok (.longArray arr)
    rw [psv_marker ops 'L' (by decide) (by decide) _ hbl hne]
    rw [base64_roundtrip _ hbl]
    show (match (chunks8 (arr.map beBytes8).flatten).mapM i64ChunkVal? with
          | some a => Except.ok (Value.longArray a)
          | none => Except.error NbtErr.panic)
      = Except.ok (Value.longArray arr)
    rw [chunks8_blocks _ (by
      intro b hb
      rcases List.mem_map.1 hb with ⟨v, _, rfl⟩
      exact beBytes8_length v)]
    rw [mapM_beBytes8 arr hw.2]
  | .list .nil, h => by
    show json_to_nbt ops (.obj (.cons ['[', ']'] (.str ['E', 'n', 'd']) .nil)) = .ok (.list .nil)
    rfl
  | .list (.cons hd tl), h => by
    have hw : wfVList ops (.cons hd tl) = true := by simpa [wfValue] using h
    show json_to_nbt ops (.arr (vlistToJson ops (.cons hd tl))) = .ok (.list (.cons hd tl))
    simp only [json_to_nbt]
    rw [nbt_json_roundtrip_list hl (.cons hd tl) hw]
  | .compound m, h => by
    have hw : (¬(compLen m = 1 ∧ compHasKey m ['[', ']'] = true)) ∧ wfVComp ops m = true := by
      constructor
      · intro hc
        rw [wfValue] at h
        rw [hc.2] at h
        simp [hc.1] at h
      · rw [wfValue] at h
        exact (Bool.and_eq_true _ _ ▸ h : _ ∧ _).2
    show json_to_nbt ops (.obj (vcompToJson ops m)) = .ok (.compound m)
    simp only [json_to_nbt]
    rw [vcomp_objLen ops m, vcomp_objHasKey ops m]
    rw [if_neg hw.1]
    rw [nbt_json_roundtrip_comp hl m hw.2]
/-- Elementwise round trip for list payloads. -/
theorem nbt_json_roundtrip_list (hl : FloatLawful ops) :
    ∀ l : VList F32 F64, wfVList ops l = true →
      jarrToNbt ops (vlistToJson ops l) = .ok l
  | .nil, _ => rfl
  | .cons hd tl, h => by
    have hw : wfValue ops hd = true ∧ wfVList ops tl = true := by
      simpa [wfVList, Bool.and_eq_true] using h
    simp only [vlistToJson, jarrToNbt]
    rw [nbt_json_roundtrip hl hd hw.1, nbt_json_roundtrip_list hl tl hw.2]
/-- Entrywise round trip for compound payloads. -/
theorem nbt_json_roundtrip_comp (hl : FloatLawful ops) :
    ∀ m : VComp F32 F64, wfVComp ops m = true →
      jobjToNbt ops (vcompToJson ops m) = .ok m
  | .nil, _ => rfl
  | .cons k v t, h => by
    have hw : wfValue ops v = true ∧ wfVComp ops t = true := by
      simpa [wfVComp, Bool.and_eq_true] using h
    simp only [vcompToJson, jobjToNbt]
    rw [nbt_json_roundtrip hl v hw.1, nbt_json_roundtrip_comp hl t hw.2]
end

end RoundTrip

/-- The type-likeness rule exactly as the claim words it (for the
refinement comparison): (a) last character one of b/s/L/f with the
remaining prefix parsing as a number, or (b) second character `;`
with first character one of B/I/L — with no requirement that a
nonempty payload follow the two-character array prefix. -/
def specTypeLike (s : Str) : Bool :=
  (match s.getLast? with
   | some c => decide (c = 'b' ∨ c = 's' ∨ c = 'L' ∨ c = 'f') && rustFloatGrammar s.dropLast
   | none => false)
  ||
  (match s with
   | c0 :: ';' :: _ => decide (c0 = 'B' ∨ c0 = 'I' ∨ c0 = 'L')
   | _ => false)

/-- The amended type-likeness rule: as the claim words it, except that
shape (b) additionally requires the string to extend past the
two-character prefix (`s.len() > 2` in the source). -/
def specTypeLikeAmended (s : Str) : Bool :=
  (match s.getLast? with
   | some c => decide (c = 'b' ∨ c = 's' ∨ c = 'L' ∨ c = 'f') && rustFloatGrammar s.dropLast
   | none => false)
  ||
  (match s with
   | c0 :: ';' :: _ :: _ => decide (c0 = 'B' ∨ c0 = 'I' ∨ c0 = 'L')
   | _ => false)

theorem is_type_like_eq_specAmended (s : Str) :
    is_type_like_string s = specTypeLikeAmended s := by
  unfold is_type_like_string specTypeLikeAmended
  by_cases hlen : s.length < 2
  · rw [if_pos hlen]
    rcases s with _ | ⟨c, cs⟩
    · rfl
    · rcases cs with _ | ⟨d, ds⟩
      · show false = (_ || _)
        have h1 : ([c] : Str).getLast? = some c := rfl
        rw [h1]
        have h2 : ([c] : Str).dropLast = [] := rfl
        rw [h2]
        show false = (_ && rustFloatGrammar [] || false)
        have : rustFloatGrammar [] = false := rfl
        rw [this]
        simp
      · simp at hlen
        omega
  · rw [if_neg hlen]
    congr 1
    rcases hlast : s.getLast? with _ | c
    · rfl
    · by_cases hc : c = 'b' ∨ c = 's' ∨ c = 'L' ∨ c = 'f'
      · simp [hc]
      · simp [hc]

/-- C3 counterexample: the literal string `"B;"` has `;` as its second
character and `B` as its first, so the claim's rule classifies it as
type-like and demands the escape marker; the encoder leaves it
untouched (the source requires `s.len() > 2`). -/
theorem C3_counterexample :
    specTypeLike ('B' :: ';' :: []) = true
      ∧ nbt_to_json trivOps (.string ('B' :: ';' :: [])) = .str ('B' :: ';' :: []) := by
  constructor
  · decide
  · decide

/-- C3 (amended): the source's type-likeness test agrees with the
claim's rule once shape (b) also requires length greater than two;
every type-like literal string is encoded with the 2-character escape
marker `\0` appended, and the decoder strips exactly that marker,
restoring the literal.  No type-like literal is passed through
unescaped. -/
theorem C3_type_like_escape {F32 F64 : Type} (ops : FloatOps F32 F64) (s : Str) :
    is_type_like_string s = specTypeLikeAmended s
      ∧ (is_type_like_string s = true →
          nbt_to_json ops (.string s) = .str (s ++ ['\\', '0'])
            ∧ parse_string_value ops (s ++ ['\\', '0']) = .ok (.string s)) := by
  refine ⟨is_type_like_eq_specAmended s, fun ht => ⟨?_, psv_escaped ops s⟩⟩
  simp [nbt_to_json, ht]

theorem C3_witness :
    (is_type_like_string ('5' :: 'b' :: []) = specTypeLikeAmended ('5' :: 'b' :: []))
      ∧ nbt_to_json trivOps (.string ('5' :: 'b' :: [])) = .str ('5' :: 'b' :: '\\' :: '0' :: [])
      ∧ parse_string_value trivOps ('5' :: 'b' :: '\\' :: '0' :: [])
          = .ok (.string ('5' :: 'b' :: [])) := by
  refine ⟨(C3_type_like_escape trivOps ('5' :: 'b' :: [])).1, ?_, ?_⟩
  · exact ((C3_type_like_escape trivOps ('5' :: 'b' :: [])).2 (by decide)).1
  · exact ((C3_type_like_escape trivOps ('5' :: 'b' :: [])).2 (by decide)).2

/-- C1 counterexample: the empty byte array encodes to the bare
string `"B;"`, which the decoder (whose array branch requires length
greater than two) reads back as the literal string `"B;"`, not as an
empty byte array — so decode ∘ encode is not the identity on all
representable tag values. -/
theorem C1_counterexample :
    json_to_nbt trivOps (nbt_to_json trivOps (.byteArray []))
        = .ok (.string ('B' :: ';' :: []))
      ∧ json_to_nbt trivOps (nbt_to_json trivOps (.byteArray []))
          ≠ .ok (.byteArray []) := by
  constructor
  · decide
  · decide

/-- C1 (amended): on every well-formed tag value — machine-width
integer payloads, finite doubles, nonempty arrays, no compound whose
sole key is `"[]"`, and strings that are either type-like or free of
both a trailing escape marker and an invalid-base64 `;`-shape —
decoding inverts encoding, and the escape marker appended to a
type-like string survives exactly one strip. -/
theorem C1_roundtrip {F32 F64 : Type} (ops : FloatOps F32 F64) (hl : FloatLawful ops)
    (v : Value F32 F64) (hwf : wfValue ops v = true) :
    json_to_nbt ops (nbt_to_json ops v) = .ok v
      ∧ ∀ s : Str, is_type_like_string s = true →
          nbt_to_json ops (.string s) = .str (s ++ ['\\', '0'])
            ∧ parse_string_value ops (s ++ ['\\', '0']) = .ok (.string s) := by
  refine ⟨nbt_json_roundtrip ops hl v hwf, fun s ht => ⟨?_, psv_escaped ops s⟩⟩
  simp [nbt_to_json, ht]

theorem C1_witness :
    wfValue trivOps
        (.compound (.cons ('k' :: []) (.list (.cons (.byte 5) (.cons (.short (-3)) .nil)))
          (.cons ('s' :: []) (.string ('5' :: 'b' :: []))
            (.cons ('a' :: []) (.intArray [70000, -1]) .nil))))
        = true
      ∧ json_to_nbt trivOps (nbt_to_json trivOps
          (.compound (.cons ('k' :: []) (.list (.cons (.byte 5) (.cons (.short (-3)) .nil)))
            (.cons ('s' :: []) (.string ('5' :: 'b' :: []))
              (.cons ('a' :: []) (.intArray [70000, -1]) .nil)))))
        = .ok (.compound (.cons ('k' :: []) (.list (.cons (.byte 5) (.cons (.short (-3)) .nil)))
            (.cons ('s' :: []) (.string ('5' :: 'b' :: []))
              (.cons ('a' :: []) (.intArray [70000, -1]) .nil)))) := by
  refine ⟨by decide, ?_⟩
  exact (C1_roundtrip trivOps trivOps_lawful _ (by decide)).1

/-- C10: `json_to_nbt` is not panic-free — on the JSON string
`"I;QUJD"` the base64 payload decodes to three bytes, `chunks(4)`
yields a single 3-byte chunk, and indexing `c[3]` in
`i32::from_be_bytes([c[0], c[1], c[2], c[3]])` is out of bounds.  The
model returns the distinguished panic value exactly there. -/
theorem C10_panic :
    json_to_nbt trivOps
        (.str ('I' :: ';' :: 'Q' :: 'U' :: 'J' :: 'D' :: [])) = .error .panic := by
  decide

/-- C7 counterexample: the JSON number `2^63` (representable as a
serde `PosInt`, lexically integral, outside `i32`) is claimed to
decode as a 64-bit integer; the source's `as_i64` fails on it and the
`as_f64` fallback yields a 64-bit float instead. -/
theorem C7_counterexample :
    json_to_nbt trivOps
        (.num (.int 9223372036854775808)) = .ok (.double ()) := by
  decide

/-- C7 (amended): a JSON number with no fractional part decodes as a
32-bit integer when in `i32` range and as a 64-bit integer when it
fits `i64`; an integral number beyond `i64` range decodes as a 64-bit
float through the `as f64` cast; a number with a fractional part
decodes as a 64-bit float; `true`/`false` decode as the 8-bit
integers 1/0; `null` decodes as the 8-bit integer 0. -/
theorem C7_number_decode {F32 F64 : Type} (ops : FloatOps F32 F64) :
    (∀ i : Int, -2147483648 ≤ i ∧ i ≤ 2147483647 →
        json_to_nbt ops (.num (.int i)) = .ok (.int i))
      ∧ (∀ i : Int, -9223372036854775808 ≤ i ∧ i < 9223372036854775808 →
          ¬(-2147483648 ≤ i ∧ i ≤ 2147483647) →
          json_to_nbt ops (.num (.int i)) = .ok (.long i))
      ∧ (∀ i : Int, ¬(-9223372036854775808 ≤ i ∧ i < 9223372036854775808) →
          json_to_nbt ops (.num (.int i)) = .ok (.double (ops.f64OfInt i)))
      ∧ (∀ f : F64, json_to_nbt ops (.num (.float f)) = .ok (.double f))
      ∧ json_to_nbt ops (.bool true) = .ok (.byte 1)
      ∧ json_to_nbt ops (.bool false) = .ok (.byte 0)
      ∧ json_to_nbt ops .null = .ok (.byte 0) := by
  refine ⟨?_, ?_, ?_, fun f => rfl, rfl, rfl, rfl⟩
  · intro i hi
    simp only [json_to_nbt, JsonNum.asI64]
    rw [if_pos (by omega)]
    simp only [if_pos hi]
  · intro i hi64 hi32
    simp only [json_to_nbt, JsonNum.asI64]
    rw [if_pos hi64]
    simp only [if_neg hi32]
  · intro i hi64
    simp only [json_to_nbt, JsonNum.asI64]
    rw [if_neg hi64]
    rfl

theorem C7_witness :
    json_to_nbt trivOps (.num (.int 7)) = .ok (.int 7)
      ∧ json_to_nbt trivOps (.num (.int 3000000000)) = .ok (.long 3000000000)
      ∧ json_to_nbt trivOps (.num (.int 18446744073709551615))
          = .ok (.double (trivOps.f64OfInt 18446744073709551615)) := by
  refine ⟨?_, ?_, ?_⟩
  · exact (C7_number_decode trivOps).1 7 (by decide)
  · exact (C7_number_decode trivOps).2.1 3000000000 (by decide) (by decide)
  · exact (C7_number_decode trivOps).2.2.1 18446744073709551615 (by decide)

/-- `HashMap::remove` on the entry-list model (keys are unique in a
`HashMap`, so removing every matching entry coincides). -/
def compRemove {F32 F64 : Type} : VComp F32 F64 → Str → VComp F32 F64
  | .nil, _ => .nil
  | .cons k' v' t, key => if k' = key then compRemove t key else .cons k' v' (compRemove t key)

/-- Sequential removal of a field list (`for field in FIELDS {
map.remove(field) }`). -/
def removeFields {F32 F64 : Type} (m : VComp F32 F64) (fields : List Str) : VComp F32 F64 :=
  fields.foldl compRemove m

/-- Append one entry (the position `HashMap` insertion takes is not
observable; the entry list carries it at the end). -/
def compAppendEntry {F32 F64 : Type} : VComp F32 F64 → Str → Value F32 F64 → VComp F32 F64
  | .nil, k, v => .cons k v .nil
  | .cons k' v' t, k, v => .cons k' v' (compAppendEntry t k v)

/-- `map.entry(k).or_insert(v)`: insert only when the key is absent. -/
def compInsertIfAbsent {F32 F64 : Type} (m : VComp F32 F64) (k : Str) (v : Value F32 F64) :
    VComp F32 F64 :=
  if compHasKey m k then m else compAppendEntry m k v

/-- `CHUNK_NOISE_FIELDS` (src/denoise.rs). -/
def CHUNK_NOISE_FIELDS : List Str :=
  ["LastUpdate", "InhabitedTime", "blending_data", "PostProcessing", "isLightOn",
   "CarvingMasks", "starlight.light_version", "starlight.blocklight_state",
   "starlight.skylight_state"].map String.toList

/-- `CHUNK_AGGRESSIVE_FIELDS` (src/denoise.rs). -/
def CHUNK_AGGRESSIVE_FIELDS : List Str :=
  ["Heightmaps", "fluid_ticks", "block_ticks", "structures"].map String.toList

/-- `SECTION_LIGHT_FIELDS` (src/denoise.rs). -/
def SECTION_LIGHT_FIELDS : List Str :=
  ["BlockLight", "SkyLight"].map String.toList

/-- Strip the section-light fields from one `sections` element when it
is a compound. -/
def stripSection {F32 F64 : Type} : Value F32 F64 → Value F32 F64
  | .compound sm => .compound (removeFields sm SECTION_LIGHT_FIELDS)
  | v => v

/-- Elementwise pass over the `sections` list. -/
def stripSectionList {F32 F64 : Type} : VList F32 F64 → VList F32 F64
  | .nil => .nil
  | .cons s t => .cons (stripSection s) (stripSectionList t)

/-- Update the value stored under one key in place (`get_mut`). -/
def compUpdate {F32 F64 : Type} (m : VComp F32 F64) (key : Str)
    (f : Value F32 F64 → Value F32 F64) : VComp F32 F64 :=
  match m with
  | .nil => .nil
  | .cons k v t => if k = key then .cons k (f v) (compUpdate t key f)
    else .cons k v (compUpdate t key f)

/-- `if let Some(Value::List(sections)) = map.get_mut("sections")`:
strip the per-section light fields from a list under `sections`. -/
def stripSectionLights {F32 F64 : Type} (m : VComp F32 F64) : VComp F32 F64 :=
  compUpdate m ("sections".toList) fun v =>
    match v with
    | .list sections => .list (stripSectionList sections)
    | v => v

/-- `denoise_chunk` (src/denoise.rs): remove the default noise
fields, strip the section light data, and in aggressive mode remove
the aggressive field set. -/
def denoise_chunk {F32 F64 : Type} (value : Value F32 F64) (aggressive : Bool) :
    Value F32 F64 :=
  match value with
  | .compound map =>
    let m1 := removeFields map CHUNK_NOISE_FIELDS
    let m2 := stripSectionLights m1
    let m3 := if aggressive then removeFields m2 CHUNK_AGGRESSIVE_FIELDS else m2
    .compound m3
  | v => v

/-- `restore_defaults` (src/denoise.rs): insert-if-absent zero
defaults for `LastUpdate`, `InhabitedTime` and `isLightOn`. -/
def restore_defaults {F32 F64 : Type} (value : Value F32 F64) : Value F32 F64 :=
  match value with
  | .compound map =>
    .compound (compInsertIfAbsent
      (compInsertIfAbsent (compInsertIfAbsent map ("LastUpdate".toList) (.long 0))
        ("InhabitedTime".toList) (.long 0))
      ("isLightOn".toList) (.byte 0))
  | v => v

theorem compRemove_append {F32 F64 : Type} :
    ∀ (m : VComp F32 F64) (k key : Str) (v : Value F32 F64),
    compRemove (compAppendEntry m k v) key
      = if k = key then compRemove m key else compAppendEntry (compRemove m key) k v
  | .nil, k, key, v => by
    by_cases h : k = key <;> simp [compAppendEntry, compRemove, h]
  | .cons k' v' t, k, key, v => by
    by_cases h2 : k' = key
    · simp [compAppendEntry, compRemove, h2, compRemove_append t k key v]
    · simp [compAppendEntry, compRemove, h2, compRemove_append t k key v]
      by_cases h : k = key <;> simp [h, compAppendEntry]

theorem removeFields_append_mem {F32 F64 : Type} (fields : List Str) :
    ∀ (m : VComp F32 F64) (k : Str) (v : Value F32 F64), k ∈ fields →
      removeFields (compAppendEntry m k v) fields = removeFields m fields := by
  induction fields with
  | nil => intro _ _ _ h; simp at h
  | cons f fs ih =>
    intro m k v hmem
    simp only [removeFields, List.foldl_cons]
    by_cases h : k = f
    · subst h
      rw [compRemove_append, if_pos rfl]
    · rw [compRemove_append, if_neg h]
      have : k ∈ fs := by
        rcases List.mem_cons.1 hmem with h2 | h2
        · exact absurd h2 h
        · exact h2
      exact ih (compRemove m f) k v this

theorem compHasKey_append {F32 F64 : Type} :
    ∀ (m : VComp F32 F64) (k key : Str) (v : Value F32 F64),
    compHasKey (compAppendEntry m k v) key = (compHasKey m key || k = key)
  | .nil, k, key, v => by simp [compAppendEntry, compHasKey]
  | .cons k' v' t, k, key, v => by
    simp [compAppendEntry, compHasKey, compHasKey_append t k key v]
    by_cases h : k' = key <;> simp [h, Bool.or_assoc]

/-- C6: on a record whose root compound does not already contain the
touched keys (`LastUpdate`, `InhabitedTime`, `isLightOn`),
`restore_defaults` followed by `denoise_chunk` (default field set,
any aggressive flag) equals `denoise_chunk` alone: restore only
inserts absent keys, and all three are in `CHUNK_NOISE_FIELDS`, so
the denoise pass removes exactly what restore added. -/
theorem C6_restore_then_denoise {F32 F64 : Type} (v : Value F32 F64) (aggressive : Bool)
    (h : ∀ m : VComp F32 F64, v = .compound m →
      compHasKey m ("LastUpdate".toList) = false
        ∧ compHasKey m ("InhabitedTime".toList) = false
        ∧ compHasKey m ("isLightOn".toList) = false) :
    denoise_chunk (restore_defaults v) aggressive = denoise_chunk v aggressive := by
  match v with
  | .compound m =>
    rcases h m rfl with ⟨h1, h2, h3⟩
    show denoise_chunk (.compound (compInsertIfAbsent
      (compInsertIfAbsent (compInsertIfAbsent m ("LastUpdate".toList) (.long 0))
        ("InhabitedTime".toList) (.long 0))
      ("isLightOn".toList) (.byte 0))) aggressive = _
    have e1 : compInsertIfAbsent m ("LastUpdate".toList) (.long 0)
        = compAppendEntry m ("LastUpdate".toList) (.long 0) := by
      rw [compInsertIfAbsent, if_neg (by rw [h1]; simp)]
    have e2 : compInsertIfAbsent (compAppendEntry m ("LastUpdate".toList) (.long 0))
          ("InhabitedTime".toList) (.long 0)
        = compAppendEntry (compAppendEntry m ("LastUpdate".toList) (.long 0))
          ("InhabitedTime".toList) (.long 0) := by
      rw [compInsertIfAbsent, if_neg (by rw [compHasKey_append, h2]; decide)]
    have e3 : compInsertIfAbsent
          (compAppendEntry (compAppendEntry m ("LastUpdate".toList) (.long 0))
            ("InhabitedTime".toList) (.long 0))
          ("isLightOn".toList) (.byte 0)
        = compAppendEntry
          (compAppendEntry (compAppendEntry m ("LastUpdate".toList) (.long 0))
            ("InhabitedTime".toList) (.long 0))
          ("isLightOn".toList) (.byte 0) := by
      rw [compInsertIfAbsent, if_neg (by
        rw [compHasKey_append, compHasKey_append, h3]; decide)]
    rw [e1, e2, e3]
    have hrm : removeFields
        (compAppendEntry (compAppendEntry (compAppendEntry m ("LastUpdate".toList) (.long 0))
          ("InhabitedTime".toList) (.long 0)) ("isLightOn".toList) (.byte 0))
        CHUNK_NOISE_FIELDS = removeFields m CHUNK_NOISE_FIELDS := by
      rw [removeFields_append_mem _ _ _ _ (by decide)]
      rw [removeFields_append_mem _ _ _ _ (by decide)]
      rw [removeFields_append_mem _ _ _ _ (by decide)]
    simp only [denoise_chunk, hrm]
  | .byte w => rfl
  | .short w => rfl
  | .int w => rfl
  | .long w => rfl
  | .float w => rfl
  | .double w => rfl
  | .string w => rfl
  | .byteArray w => rfl
  | .intArray w => rfl
  | .longArray w => rfl
  | .list w => rfl

theorem C6_witness :
    (∀ m : VComp Unit Unit,
        (Value.compound (.cons ("Status".toList) (.string ("full".toList)) .nil)
            : Value Unit Unit) = .compound m →
        compHasKey m ("LastUpdate".toList) = false
          ∧ compHasKey m ("InhabitedTime".toList) = false
          ∧ compHasKey m ("isLightOn".toList) = false)
      ∧ denoise_chunk (restore_defaults
            (Value.compound (.cons ("Status".toList) (.string ("full".toList)) .nil)
              : Value Unit Unit)) true
        = denoise_chunk
            (Value.compound (.cons ("Status".toList) (.string ("full".toList)) .nil)
              : Value Unit Unit) true := by
  constructor
  · intro m hm
    injection hm with h
    subst h
    exact ⟨by decide, by decide, by decide⟩
  · exact C6_restore_then_denoise _ true (by
      intro m hm
      injection hm with h
      subst h
      exact ⟨by decide, by decide, by decide⟩)

theorem ldiff31_eq (m : Nat) : Nat.ldiff 31 m = 31 - m % 32 := by
  apply Nat.eq_of_testBit_eq
  intro i
  rw [Nat.testBit_ldiff]
  rcases Nat.lt_or_ge i 5 with h | h
  · interval_cases i <;>
    · simp only [Nat.testBit_to_div_mod, pow_zero, pow_one, Nat.div_one]
      norm_num
      rw [Bool.eq_iff_iff]
      simp only [decide_eq_true_eq, Bool.not_eq_true', decide_eq_false_iff_not]
      omega
  · have h31 : Nat.testBit 31 i = false := by
      apply Nat.testBit_eq_false_of_lt
      calc (31 : Nat) < 2 ^ 5 := by norm_num
        _ ≤ 2 ^ i := Nat.pow_le_pow_right (by norm_num) h
    have hr : Nat.testBit (31 - m % 32) i = false := by
      apply Nat.testBit_eq_false_of_lt
      calc 31 - m % 32 < 2 ^ 5 := by omega
        _ ≤ 2 ^ i := Nat.pow_le_pow_right (by norm_num) h
    simp [h31, hr]

/-- Rust's `x & 31` on `i32` (two's complement bitwise AND) equals the
Euclidean remainder `x mod 32`. -/
theorem land31_eq_emod (x : Int) : Int.land x 31 = x % 32 := by
  cases x with
  | ofNat n =>
    show Int.ofNat (Nat.land n 31) = _
    have h := Nat.and_pow_two_sub_one_eq_mod n 5
    norm_num at h
    have h2 : Nat.land n 31 = n &&& 31 := rfl
    rw [h2, h]
    show ((n % 32 : Nat) : Int) = ((n : Nat) : Int) % 32
    omega
  | negSucc m =>
    show Int.ofNat (Nat.ldiff 31 m) = _
    rw [ldiff31_eq m]
    rw [Int.negSucc_eq]
    show ((31 - m % 32 : Nat) : Int) = -((m : Int) + 1) % 32
    omega

/-- `SECTOR_SIZE` (src/mca.rs). -/
def SECTOR_SIZE : Nat := 4096

/-- `ChunkData` (src/mca.rs). -/
structure ChunkData (F32 F64 : Type) where
  x : Int
  z : Int
  data : Value F32 F64

/-- The external byte codecs `write_mca`/`read_mca` dispatch to,
abstracted as the spec directs: fastnbt's whole-tree byte codec and
flate2's zlib/gzip streams, with decompression failing on corrupt
input. -/
structure McaOps (F32 F64 : Type) where
  nbtToBytes : Value F32 F64 → List Nat
  nbtFromBytes : List Nat → Option (Value F32 F64)
  zlibCompress : List Nat → List Nat
  zlibDecompress : List Nat → Option (List Nat)
  gzipDecompress : List Nat → Option (List Nat)

/-- The location-table slot index `(chunk.x & 31) + (chunk.z & 31) * 32`
of `write_mca` (src/mca.rs line 123). -/
def slotIndex (x z : Int) : Int := Int.land x 31 + Int.land z 31 * 32

/-- C5: for any `i32` coordinates, the slot index written by
`write_mca` is `(x mod 32) + (z mod 32) * 32` with Euclidean (floor)
modulo, so negative coordinates land in the local range `[0, 32)`. -/
theorem C5_slot_index : ∀ x z : Int,
    slotIndex x z = x % 32 + z % 32 * 32
      ∧ (0 ≤ x % 32 ∧ x % 32 < 32) ∧ (0 ≤ z % 32 ∧ z % 32 < 32) := by
  intro x z
  refine ⟨?_, ⟨?_, ?_⟩, ⟨?_, ?_⟩⟩
  · unfold slotIndex
    rw [land31_eq_emod, land31_eq_emod]
  · exact Int.emod_nonneg x (by norm_num)
  · exact Int.emod_lt_of_pos x (by norm_num)
  · exact Int.emod_nonneg z (by norm_num)
  · exact Int.emod_lt_of_pos z (by norm_num)

/-- Big-endian bytes of a `u32` value (`to_be_bytes`). -/
def beBytesU32 (u : Nat) : List Nat :=
  [u / 16777216 % 256, u / 65536 % 256, u / 256 % 256, u % 256]

section Mca

variable {F32 F64 : Type} (mops : McaOps F32 F64)

/-- The zlib-compressed record payload of one chunk
(`fastnbt::to_bytes` then `ZlibEncoder`). -/
def compressedOf (c : ChunkData F32 F64) : List Nat :=
  mops.zlibCompress (mops.nbtToBytes c.data)

/-- `sector_count = (chunk_length + SECTOR_SIZE - 1) / SECTOR_SIZE`
with `chunk_length = compressed.len() + 5`. -/
def scOf (c : ChunkData F32 F64) : Nat :=
  ((compressedOf mops c).length + 5 + SECTOR_SIZE - 1) / SECTOR_SIZE

/-- One chunk's padded sector data: the 4-byte big-endian length
`(compressed.len() + 1) as u32`, the zlib method byte 2, the
compressed payload, zero-filled to a whole number of sectors. -/
def chunkDataOf (c : ChunkData F32 F64) : List Nat :=
  beBytesU32 (((compressedOf mops c).length + 1) % 4294967296) ++ [2]
    ++ compressedOf mops c
    ++ List.replicate (scOf mops c * SECTOR_SIZE - ((compressedOf mops c).length + 5)) 0

/-- The slot index as the `usize` the source casts it to. -/
def idxOf (c : ChunkData F32 F64) : Nat := (slotIndex c.x c.z).toNat

/-- Write one slot's location-table entry: three high-to-low bytes of
the sector offset (`offset_bytes[1..3]` of the big-endian `u32`) and
the sector count as `u8`. -/
def setLoc (locations : List Nat) (idx : Nat) (sector : Nat) (count : Nat) : List Nat :=
  let offb := beBytesU32 (sector % 4294967296)
  ((((locations.set (idx * 4) (offb.getD 1 0)).set (idx * 4 + 1) (offb.getD 2 0)).set
    (idx * 4 + 2) (offb.getD 3 0)).set (idx * 4 + 3) (count % 256))

/-- The per-chunk loop of `write_mca`: accumulate location-table
entries and padded sector data, advancing the running next-free
sector (a `u32` in the source, hence the modulus). -/
def writeLoop : List (ChunkData F32 F64) → List Nat → Nat → (List Nat × List (List Nat))
  | [], locations, _ => (locations, [])
  | c :: rest, locations, currentSector =>
    let pr := writeLoop rest (setLoc locations (idxOf c) currentSector (scOf mops c))
      ((currentSector + scOf mops c) % 4294967296)
    (pr.1, chunkDataOf mops c :: pr.2)

/-- `write_mca` (src/mca.rs): `none` models the source's early return
that writes no file at all for an empty record list; otherwise the
bytes written are the location table, a zero timestamp table, and the
payload sectors in emission order. -/
def write_mca (chunks : List (ChunkData F32 F64)) : Option (List Nat) :=
  if chunks.isEmpty then none
  else
    let pr := writeLoop mops chunks (List.replicate SECTOR_SIZE 0) 2
    some (pr.1 ++ List.replicate SECTOR_SIZE 0 ++ pr.2.flatten)

/-- Errors of `read_mca`: a propagated I/O-style error (corrupt
compressed stream) or a panic (reversed slice bounds). -/
inductive McaErr where
  | ioErr
  | panic
  deriving DecidableEq

/-- `&data[a..b]`: `none` models the slice panic when the range is
reversed or out of bounds. -/
def slice? (data : List Nat) (a b : Nat) : Option (List Nat) :=
  if a ≤ b ∧ b ≤ data.length then some ((data.drop a).take (b - a)) else none

/-- The 3-byte sector offset of slot `i`
(`u32::from_be_bytes([0, data[i*4], data[i*4+1], data[i*4+2]])`). -/
def slotOffsetAt (data : List Nat) (i : Nat) : Nat :=
  data.getD (i * 4) 0 * 65536 + data.getD (i * 4 + 1) 0 * 256 + data.getD (i * 4 + 2) 0

/-- The sector count of slot `i`. -/
def slotCountAt (data : List Nat) (i : Nat) : Nat := data.getD (i * 4 + 3) 0

/-- Process one slot of `read_mca`'s loop: `ok none` is a skipped
slot (`continue`), an error aborts the whole read. -/
def readSlot (data : List Nat) (i : Nat) :
    Except McaErr (Option (Int × Int × Value F32 F64)) :=
  let offset := slotOffsetAt data i
  let sector_count := slotCountAt data i
  if offset = 0 ∨ sector_count = 0 then .ok none
  else
    let x : Int := ((i % 32 : Nat) : Int)
    let z : Int := ((i / 32 : Nat) : Int)
    let chunk_offset := offset * SECTOR_SIZE
    if chunk_offset + 5 > data.length then .ok none
    else
      let length := data.getD chunk_offset 0 * 16777216 + data.getD (chunk_offset + 1) 0 * 65536
        + data.getD (chunk_offset + 2) 0 * 256 + data.getD (chunk_offset + 3) 0
      let compression := data.getD (chunk_offset + 4) 0
      if chunk_offset + 5 + length - 1 > data.length then .ok none
      else
        match slice? data (chunk_offset + 5) (chunk_offset + 4 + length) with
        | none => .error .panic
        | some compressed =>
          let decompressed : Except McaErr (Option (List Nat)) :=
            if compression = 1 then
              match mops.gzipDecompress compressed with
              | none => .error .ioErr
              | some d => .ok (some d)
            else if compression = 2 then
              match mops.zlibDecompress compressed with
              | none => .error .ioErr
              | some d => .ok (some d)
            else if compression = 3 then .ok (some compressed)
            else .ok none
          match decompressed with
          | .error e => .error e
          | .ok none => .ok none
          | .ok (some nbtData) =>
            match mops.nbtFromBytes nbtData with
            | some v => .ok (some (x, z, v))
            | none => .ok none

/-- The slot loop of `read_mca` over a list of slot indices. -/
def readSlots (data : List Nat) : List Nat → Except McaErr (List (Int × Int × Value F32 F64))
  | [] => .ok []
  | i :: rest =>
    match readSlot mops data i with
    | .error e => .error e
    | .ok none => readSlots data rest
    | .ok (some r) =>
      match readSlots data rest with
      | .error e => .error e
      | .ok l => .ok (r :: l)

/-- `read_mca` (src/mca.rs): empty result for inputs shorter than two
sectors, otherwise the 1024-slot loop. -/
def read_mca (data : List Nat) : Except McaErr (List (Int × Int × Value F32 F64)) :=
  if data.length < SECTOR_SIZE * 2 then .ok []
  else readSlots mops data (List.range 1024)

end Mca

/-- A degenerate but contract-satisfying instance of the external
codecs, used to instantiate the abstract container theorems. -/
def trivMcaOps : McaOps Unit Unit where
  nbtToBytes _ := [0]
  nbtFromBytes bs := if bs = [0] then some (.byte 0) else none
  zlibCompress := id
  zlibDecompress := some
  gzipDecompress _ := none

/-- C9: `read_mca` can panic.  A container whose slot 0 declares
offset 2, sector count 1, and a 4-byte payload length of zero passes
every bounds guard (`chunk_offset + 5 + length - 1` is
`chunk_offset + 4 ≤ len`), after which the payload slice
`&data[chunk_offset + 5 .. chunk_offset + 4 + length]` has its start
after its end — a reversed-range slice panic. -/
theorem C9_read_mca_panic :
    read_mca trivMcaOps
        ([0, 0, 2, 1] ++ List.replicate 8188 0 ++ [0, 0, 0, 0, 2]) = .error .panic := by
  have hlen : ([0, 0, 2, 1] ++ List.replicate 8188 0 ++ [0, 0, 0, 0, 2] : List Nat).length
      = 8197 := by
    rw [List.length_append, List.length_append, List.length_replicate]
    rfl
  have hplen : (([0, 0, 2, 1] ++ List.replicate 8188 0 : List Nat)).length = 8192 := by
    rw [List.length_append, List.length_replicate]
    rfl
  have htail : ∀ k : Nat,
      ([0, 0, 2, 1] ++ List.replicate 8188 0 ++ [0, 0, 0, 0, 2] : List Nat).getD (8192 + k) 0
        = ([0, 0, 0, 0, 2] : List Nat).getD k 0 := by
    intro k
    rw [List.getD_append_right _ _ _ _ (by rw [hplen]; omega)]
    rw [hplen]
    have hidx : 8192 + k - 8192 = k := by omega
    rw [hidx]
  have h0 : ([0, 0, 2, 1] ++ List.replicate 8188 0 ++ [0, 0, 0, 0, 2] : List Nat).getD 8192 0
      = 0 := htail 0
  have h1 : ([0, 0, 2, 1] ++ List.replicate 8188 0 ++ [0, 0, 0, 0, 2] : List Nat).getD 8193 0
      = 0 := htail 1
  have h2 : ([0, 0, 2, 1] ++ List.replicate 8188 0 ++ [0, 0, 0, 0, 2] : List Nat).getD 8194 0
      = 0 := htail 2
  have h3 : ([0, 0, 2, 1] ++ List.replicate 8188 0 ++ [0, 0, 0, 0, 2] : List Nat).getD 8195 0
      = 0 := htail 3
  have hoff : slotOffsetAt ([0, 0, 2, 1] ++ List.replicate 8188 0 ++ [0, 0, 0, 0, 2]) 0
      = 2 := rfl
  have hcnt : slotCountAt ([0, 0, 2, 1] ++ List.replicate 8188 0 ++ [0, 0, 0, 0, 2]) 0
      = 1 := rfl
  generalize hD : ([0, 0, 2, 1] ++ List.replicate 8188 0 ++ [0, 0, 0, 0, 2] : List Nat) = D
  rw [hD] at hlen h0 h1 h2 h3 hoff hcnt
  have hslot : readSlot trivMcaOps D 0 = .error .panic := by
    unfold readSlot
    rw [hoff, hcnt]
    rw [if_neg (by omega)]
    rw [hlen]
    simp only [SECTOR_SIZE]
    norm_num
    simp only [List.getD_eq_getElem?_getD] at h0 h1 h2 h3
    rw [h0, h1, h2, h3]
    norm_num
    unfold slice?
    rw [hlen]
    rw [if_neg (by norm_num)]
  unfold read_mca
  rw [hlen]
  rw [if_neg (by norm_num [SECTOR_SIZE])]
  have hr : List.range 1024 = 0 :: (List.range 1023).map Nat.succ := by
    rw [List.range_succ_eq_map]
  rw [hr]
  unfold readSlots
  rw [hslot]

theorem getD_set_ne (l : List Nat) (i j v : Nat) (h : i ≠ j) :
    (l.set i v).getD j 0 = l.getD j 0 := by
  rw [List.getD_eq_getElem?_getD, List.getD_eq_getElem?_getD, List.getElem?_set_ne h]

theorem getD_set_self (l : List Nat) (i v : Nat) (h : i < l.length) :
    (l.set i v).getD i 0 = v := by
  rw [List.getD_eq_getElem?_getD, List.getElem?_set_self h]
  rfl

section McaProof

variable {F32 F64 : Type} (mops : McaOps F32 F64)

theorem setLoc_length (loc : List Nat) (i s cnt : Nat) :
    (setLoc loc i s cnt).length = loc.length := by
  simp [setLoc, List.length_set]

theorem setLoc_getD_out (loc : List Nat) (i s cnt p : Nat)
    (h : p < i * 4 ∨ i * 4 + 3 < p) :
    (setLoc loc i s cnt).getD p 0 = loc.getD p 0 := by
  unfold setLoc
  rw [getD_set_ne _ _ _ _ (by omega), getD_set_ne _ _ _ _ (by omega),
    getD_set_ne _ _ _ _ (by omega), getD_set_ne _ _ _ _ (by omega)]

theorem slotOffsetAt_setLoc_ne (loc : List Nat) (i i' s cnt : Nat) (h : i ≠ i') :
    slotOffsetAt (setLoc loc i s cnt) i' = slotOffsetAt loc i' := by
  unfold slotOffsetAt
  rw [setLoc_getD_out _ _ _ _ _ (by omega), setLoc_getD_out _ _ _ _ _ (by omega),
    setLoc_getD_out _ _ _ _ _ (by omega)]

theorem slotCountAt_setLoc_ne (loc : List Nat) (i i' s cnt : Nat) (h : i ≠ i') :
    slotCountAt (setLoc loc i s cnt) i' = slotCountAt loc i' := by
  unfold slotCountAt
  rw [setLoc_getD_out _ _ _ _ _ (by omega)]

theorem setLoc_reads (loc : List Nat) (i s cnt : Nat)
    (hlen : i * 4 + 4 ≤ loc.length) (hs : 0 < s) (hs2 : s < 16777216) (hcnt : cnt < 256) :
    slotOffsetAt (setLoc loc i s cnt) i = s ∧ slotCountAt (setLoc loc i s cnt) i = cnt := by
  have hmod : s % 4294967296 = s := by omega
  have hb1 : (beBytesU32 (s % 4294967296)).getD 1 0 = s / 65536 % 256 := by
    rw [hmod]; rfl
  have hb2 : (beBytesU32 (s % 4294967296)).getD 2 0 = s / 256 % 256 := by
    rw [hmod]; rfl
  have hb3 : (beBytesU32 (s % 4294967296)).getD 3 0 = s % 256 := by
    rw [hmod]; rfl
  simp only [setLoc, slotOffsetAt, slotCountAt]
  rw [hb1, hb2, hb3]
  have l1 := List.length_set loc (i * 4) (s / 65536 % 256)
  constructor
  · rw [getD_set_ne _ _ _ _ (by omega), getD_set_ne _ _ _ _ (by omega),
      getD_set_ne _ _ _ _ (by omega)]
    rw [getD_set_self _ _ _ (by omega)]
    rw [getD_set_ne _ _ _ _ (by omega), getD_set_ne _ _ _ _ (by omega)]
    rw [getD_set_self _ _ _ (by simp [List.length_set]; omega)]
    rw [getD_set_ne _ _ _ _ (by omega)]
    rw [getD_set_self _ _ _ (by simp [List.length_set]; omega)]
    omega
  · rw [getD_set_self _ _ _ (by simp [List.length_set]; omega)]
    omega

/-- Total sector count of a chunk list. -/
def sumSC : List (ChunkData F32 F64) → Nat
  | [] => 0
  | c :: rest => scOf mops c + sumSC rest

theorem scOf_pos (c : ChunkData F32 F64) : 0 < scOf mops c := by
  unfold scOf SECTOR_SIZE
  omega

theorem chunkDataOf_length (c : ChunkData F32 F64) :
    (chunkDataOf mops c).length = scOf mops c * SECTOR_SIZE := by
  unfold chunkDataOf beBytesU32
  simp only [List.length_append, List.length_replicate, List.length_cons, List.length_nil]
  have h : (compressedOf mops c).length + 5 ≤ scOf mops c * SECTOR_SIZE := by
    unfold scOf SECTOR_SIZE
    omega
  simp only [SECTOR_SIZE] at h ⊢
  omega

theorem idxOf_eq (c : ChunkData F32 F64) :
    idxOf c = (c.x % 32).toNat + (c.z % 32).toNat * 32 := by
  unfold idxOf slotIndex
  rw [land31_eq_emod, land31_eq_emod]
  have hx1 : 0 ≤ c.x % 32 := Int.emod_nonneg c.x (by norm_num)
  have hz1 : 0 ≤ c.z % 32 := Int.emod_nonneg c.z (by norm_num)
  omega

theorem idxOf_lt (c : ChunkData F32 F64) : idxOf c < 1024 := by
  rw [idxOf_eq]
  have hx2 : c.x % 32 < 32 := Int.emod_lt_of_pos c.x (by norm_num)
  have hz2 : c.z % 32 < 32 := Int.emod_lt_of_pos c.z (by norm_num)
  have hx1 : 0 ≤ c.x % 32 := Int.emod_nonneg c.x (by norm_num)
  have hz1 : 0 ≤ c.z % 32 := Int.emod_nonneg c.z (by norm_num)
  omega

theorem idxOf_coords (c : ChunkData F32 F64) :
    ((idxOf c % 32 : Nat) : Int) = c.x % 32 ∧ ((idxOf c / 32 : Nat) : Int) = c.z % 32 := by
  rw [idxOf_eq]
  have hx2 : c.x % 32 < 32 := Int.emod_lt_of_pos c.x (by norm_num)
  have hz2 : c.z % 32 < 32 := Int.emod_lt_of_pos c.z (by norm_num)
  have hx1 : 0 ≤ c.x % 32 := Int.emod_nonneg c.x (by norm_num)
  have hz1 : 0 ≤ c.z % 32 := Int.emod_nonneg c.z (by norm_num)
  constructor <;> omega

theorem writeLoop_sectors : ∀ (cs : List (ChunkData F32 F64)) (loc : List Nat) (s : Nat),
    (writeLoop mops cs loc s).2 = cs.map (chunkDataOf mops)
  | [], _, _ => rfl
  | c :: rest, loc, s => by
    simp only [writeLoop, List.map_cons]
    rw [writeLoop_sectors rest]

theorem writeLoop_length : ∀ (cs : List (ChunkData F32 F64)) (loc : List Nat) (s : Nat),
    (writeLoop mops cs loc s).1.length = loc.length
  | [], _, _ => rfl
  | c :: rest, loc, s => by
    simp only [writeLoop]
    rw [writeLoop_length rest, setLoc_length]

theorem writeLoop_slot_out : ∀ (cs : List (ChunkData F32 F64)) (loc : List Nat) (s : Nat)
    (i : Nat), i ∉ cs.map idxOf →
    slotOffsetAt (writeLoop mops cs loc s).1 i = slotOffsetAt loc i
      ∧ slotCountAt (writeLoop mops cs loc s).1 i = slotCountAt loc i
  | [], _, _, _, _ => ⟨rfl, rfl⟩
  | c :: rest, loc, s, i, hi => by
    have hne : idxOf c ≠ i := by
      intro he
      exact hi (by rw [List.map_cons, ← he]; exact List.mem_cons_self _ _)
    have hrest : i ∉ rest.map idxOf := by
      intro hm
      exact hi (by rw [List.map_cons]; exact List.mem_cons_of_mem _ hm)
    simp only [writeLoop]
    rcases writeLoop_slot_out rest (setLoc loc (idxOf c) s (scOf mops c))
      ((s + scOf mops c) % 4294967296) i hrest with ⟨h1, h2⟩
    rw [h1, h2, slotOffsetAt_setLoc_ne _ _ _ _ _ hne, slotCountAt_setLoc_ne _ _ _ _ _ hne]
    exact ⟨rfl, rfl⟩

theorem sumSC_take_get : ∀ (cs : List (ChunkData F32 F64)) (j : Nat) (hj : j < cs.length),
    sumSC mops (cs.take j) + scOf mops (cs.get ⟨j, hj⟩) ≤ sumSC mops cs
  | [], j, hj => by simp at hj
  | c :: rest, 0, _ => by
    simp only [List.take_zero, sumSC, List.get]
    omega
  | c :: rest, j + 1, hj => by
    simp only [List.take_succ_cons, sumSC, List.get]
    have := sumSC_take_get rest j (by simpa using hj)
    omega

set_option maxRecDepth 8000 in
theorem writeLoop_slot_entry :
    ∀ (cs : List (ChunkData F32 F64)) (loc : List Nat) (s : Nat)
      (j : Nat) (hj : j < cs.length),
      loc.length = 4096 →
      (cs.map idxOf).Nodup →
      (∀ c ∈ cs, scOf mops c ≤ 255) →
      0 < s → s + sumSC mops cs ≤ 16777216 →
      slotOffsetAt (writeLoop mops cs loc s).1 (idxOf (cs.get ⟨j, hj⟩))
          = s + sumSC mops (cs.take j)
        ∧ slotCountAt (writeLoop mops cs loc s).1 (idxOf (cs.get ⟨j, hj⟩))
          = scOf mops (cs.get ⟨j, hj⟩)
  | [], _, _, j, hj, _, _, _, _, _ => by simp at hj
  | c :: rest, loc, s, 0, hj, hlen, hnodup, hsc, hs, htot => by
    simp only [List.get, List.take_zero, sumSC]
    have hidx := idxOf_lt c
    have hscc : scOf mops c ≤ 255 := hsc c (List.mem_cons_self _ _)
    have hstot : s + scOf mops c ≤ 16777216 := by
      have : 0 ≤ sumSC mops rest := Nat.zero_le _
      simp only [sumSC] at htot
      omega
    have hpos := scOf_pos mops c
    have hnotin : idxOf c ∉ rest.map idxOf := by
      rw [List.map_cons] at hnodup
      exact (List.nodup_cons.1 hnodup).1
    simp only [writeLoop]
    rcases writeLoop_slot_out mops rest (setLoc loc (idxOf c) s (scOf mops c))
      ((s + scOf mops c) % 4294967296) (idxOf c) hnotin with ⟨h1, h2⟩
    rw [h1, h2]
    have := setLoc_reads loc (idxOf c) s (scOf mops c)
      (by omega) hs (by omega) (by omega)
    simpa using this
  | c :: rest, loc, s, j + 1, hj, hlen, hnodup, hsc, hs, htot => by
    simp only [List.get, List.take_succ_cons, sumSC]
    simp only [writeLoop]
    have hmod : (s + scOf mops c) % 4294967296 = s + scOf mops c := by
      simp only [sumSC] at htot
      omega
    rw [hmod]
    have hrec := writeLoop_slot_entry rest (setLoc loc (idxOf c) s (scOf mops c))
      (s + scOf mops c) j (by simpa using hj)
      (by rw [setLoc_length]; exact hlen)
      (by rw [List.map_cons] at hnodup; exact (List.nodup_cons.1 hnodup).2)
      (fun d hd => hsc d (List.mem_cons_of_mem _ hd))
      (by omega)
      (by simp only [sumSC] at htot; omega)
    rcases hrec with ⟨h1, h2⟩
    rw [h1, h2]
    omega

theorem flatten_chunkData_length : ∀ cs : List (ChunkData F32 F64),
    ((cs.map (chunkDataOf mops)).flatten).length = sumSC mops cs * SECTOR_SIZE
  | [] => by simp [sumSC]
  | c :: rest => by
    simp only [List.map_cons, List.flatten_cons, List.length_append, sumSC]
    rw [flatten_chunkData_length rest, chunkDataOf_length]
    ring

theorem getD_append_left (l1 l2 : List Nat) (p : Nat) (h : p < l1.length) :
    (l1 ++ l2).getD p 0 = l1.getD p 0 := by
  rw [List.getD_eq_getElem?_getD, List.getD_eq_getElem?_getD, List.getElem?_append_left h]

theorem getD_of_drop (data l : List Nat) (a k : Nat) (h : data.drop a = l) :
    data.getD (a + k) 0 = l.getD k 0 := by
  rw [List.getD_eq_getElem?_getD, List.getD_eq_getElem?_getD, ← h, List.getElem?_drop]

theorem getD_replicate_zero (n p : Nat) : (List.replicate n (0 : Nat)).getD p 0 = 0 := by
  rw [List.getD_eq_getElem?_getD, List.getElem?_replicate]
  split <;> rfl

/-- The byte buffer `write_mca` emits for a nonempty chunk list:
location table, zero timestamp table, payload sectors. -/
def mcaData (chunks : List (ChunkData F32 F64)) : List Nat :=
  (writeLoop mops chunks (List.replicate SECTOR_SIZE 0) 2).1
    ++ List.replicate SECTOR_SIZE 0 ++ (chunks.map (chunkDataOf mops)).flatten

theorem write_mca_eq (chunks : List (ChunkData F32 F64)) (hne : chunks ≠ []) :
    write_mca mops chunks = some (mcaData mops chunks) := by
  unfold write_mca mcaData
  rw [if_neg (by simpa using hne)]
  simp only [writeLoop_sectors]

theorem mcaLoc_length (chunks : List (ChunkData F32 F64)) :
    (writeLoop mops chunks (List.replicate SECTOR_SIZE 0) 2).1.length = 4096 := by
  rw [writeLoop_length, List.length_replicate]
  rfl

theorem mcaData_length (chunks : List (ChunkData F32 F64)) :
    (mcaData mops chunks).length = (2 + sumSC mops chunks) * 4096 := by
  unfold mcaData
  rw [List.length_append, List.length_append, mcaLoc_length, List.length_replicate,
    flatten_chunkData_length]
  simp only [SECTOR_SIZE]
  ring

theorem mcaData_getD_loc (chunks : List (ChunkData F32 F64)) (p : Nat) (hp : p < 4096) :
    (mcaData mops chunks).getD p 0
      = (writeLoop mops chunks (List.replicate SECTOR_SIZE 0) 2).1.getD p 0 := by
  unfold mcaData
  have h1 : p < ((writeLoop mops chunks (List.replicate SECTOR_SIZE 0) 2).1
      ++ List.replicate SECTOR_SIZE 0).length := by
    rw [List.length_append, mcaLoc_length, List.length_replicate]
    simp only [SECTOR_SIZE]
    omega
  rw [getD_append_left _ _ _ h1, getD_append_left _ _ _ (by rw [mcaLoc_length]; omega)]

theorem mcaData_slot_reads (chunks : List (ChunkData F32 F64)) (i : Nat) (hi : i < 1024) :
    slotOffsetAt (mcaData mops chunks) i
        = slotOffsetAt (writeLoop mops chunks (List.replicate SECTOR_SIZE 0) 2).1 i
      ∧ slotCountAt (mcaData mops chunks) i
        = slotCountAt (writeLoop mops chunks (List.replicate SECTOR_SIZE 0) 2).1 i := by
  unfold slotOffsetAt slotCountAt
  rw [mcaData_getD_loc mops chunks (i * 4) (by omega),
    mcaData_getD_loc mops chunks (i * 4 + 1) (by omega),
    mcaData_getD_loc mops chunks (i * 4 + 2) (by omega),
    mcaData_getD_loc mops chunks (i * 4 + 3) (by omega)]
  exact ⟨rfl, rfl⟩

theorem sumSC_append : ∀ (l1 l2 : List (ChunkData F32 F64)),
    sumSC mops (l1 ++ l2) = sumSC mops l1 + sumSC mops l2
  | [], _ => by simp [sumSC]
  | c :: rest, l2 => by
    have hr := sumSC_append rest l2
    simp only [List.cons_append, sumSC, List.append_eq] at hr ⊢
    omega

theorem flatten_drop : ∀ (cs : List (ChunkData F32 F64)) (j : Nat) (hj : j < cs.length),
    ((cs.map (chunkDataOf mops)).flatten).drop (sumSC mops (cs.take j) * 4096)
      = chunkDataOf mops (cs.get ⟨j, hj⟩)
        ++ ((cs.drop (j + 1)).map (chunkDataOf mops)).flatten
  | [], j, hj => by simp at hj
  | c :: rest, 0, _ => by
    simp only [List.take_zero, sumSC, List.map_cons, List.flatten_cons, Nat.zero_mul,
      List.drop_zero, List.get, List.drop_succ_cons, List.drop_zero]
  | c :: rest, j + 1, hj => by
    simp only [List.take_succ_cons, sumSC, List.map_cons, List.flatten_cons, List.get,
      List.drop_succ_cons]
    rw [List.drop_append_eq_append_drop]
    have hlen : (chunkDataOf mops c).length = scOf mops c * 4096 := by
      rw [chunkDataOf_length]; rfl
    rw [List.drop_eq_nil_of_le (by rw [hlen]; ring_nf; omega), List.nil_append, hlen]
    have harith : (scOf mops c + sumSC mops (rest.take j)) * 4096 - scOf mops c * 4096
        = sumSC mops (rest.take j) * 4096 := by ring_nf; omega
    rw [harith]
    exact flatten_drop rest j (by simpa using hj)

theorem mcaData_drop (chunks : List (ChunkData F32 F64)) (j : Nat) (hj : j < chunks.length) :
    (mcaData mops chunks).drop ((2 + sumSC mops (chunks.take j)) * 4096)
      = chunkDataOf mops (chunks.get ⟨j, hj⟩)
        ++ ((chunks.drop (j + 1)).map (chunkDataOf mops)).flatten := by
  unfold mcaData
  have hl : ((writeLoop mops chunks (List.replicate SECTOR_SIZE 0) 2).1
      ++ List.replicate SECTOR_SIZE 0).length = 8192 := by
    rw [List.length_append, mcaLoc_length, List.length_replicate]
    decide
  rw [List.drop_append_eq_append_drop, List.drop_eq_nil_of_le (by rw [hl]; omega),
    List.nil_append, hl]
  have harith : (2 + sumSC mops (chunks.take j)) * 4096 - 8192
      = sumSC mops (chunks.take j) * 4096 := by ring_nf; omega
  rw [harith]
  exact flatten_drop mops chunks j hj

theorem readSlot_miss (chunks : List (ChunkData F32 F64)) (i : Nat) (hi : i < 1024)
    (hmem : i ∉ chunks.map idxOf) :
    readSlot mops (mcaData mops chunks) i = .ok none := by
  have h1 := (writeLoop_slot_out mops chunks (List.replicate SECTOR_SIZE 0) 2 i hmem).1
  have h2 : slotOffsetAt (List.replicate SECTOR_SIZE 0) i = 0 := by
    unfold slotOffsetAt
    rw [getD_replicate_zero, getD_replicate_zero, getD_replicate_zero]
  have h3 := (mcaData_slot_reads mops chunks i hi).1
  simp only [readSlot]
  rw [h3, h1, h2]
  rw [if_pos (Or.inl rfl)]

theorem readSlot_hit_aux (c : ChunkData F32 F64) (S T : Nat) (tail : List Nat)
    (data : List Nat)
    (hO : slotOffsetAt data (idxOf c) = 2 + S)
    (hC : slotCountAt data (idxOf c) = scOf mops c)
    (hdlen : data.length = (2 + T) * 4096)
    (hdrop : data.drop ((2 + S) * 4096) = chunkDataOf mops c ++ tail)
    (hST : S + scOf mops c ≤ T)
    (hsc1 : scOf mops c ≤ 255)
    (htot : 2 + T ≤ 16777216)
    (hz : mops.zlibDecompress (compressedOf mops c) = some (mops.nbtToBytes c.data))
    (hn : mops.nbtFromBytes (mops.nbtToBytes c.data) = some c.data) :
    readSlot mops data (idxOf c) = .ok (some (c.x % 32, c.z % 32, c.data)) := by
  have hpos : 0 < scOf mops c := scOf_pos mops c
  have hclen5 : (compressedOf mops c).length + 5 ≤ scOf mops c * 4096 := by
    unfold scOf SECTOR_SIZE
    omega
  have hclen2 : (compressedOf mops c).length + 1 < 16777216 := by
    unfold scOf SECTOR_SIZE at hsc1
    omega
  have hm : ((compressedOf mops c).length + 1) % 4294967296
      = (compressedOf mops c).length + 1 := by omega
  have hform : chunkDataOf mops c ++ tail
      = ((compressedOf mops c).length + 1) / 16777216 % 256
        :: ((compressedOf mops c).length + 1) / 65536 % 256
        :: ((compressedOf mops c).length + 1) / 256 % 256
        :: ((compressedOf mops c).length + 1) % 256
        :: 2
        :: (compressedOf mops c
            ++ (List.replicate (scOf mops c * SECTOR_SIZE - ((compressedOf mops c).length + 5)) 0
                ++ tail)) := by
    simp only [chunkDataOf, beBytesU32, hm, List.cons_append, List.nil_append, List.append_assoc]
  have hg : ∀ k, data.getD ((2 + S) * 4096 + k) 0 = (chunkDataOf mops c ++ tail).getD k 0 :=
    fun k => getD_of_drop _ _ _ _ hdrop
  have h0 : data.getD ((2 + S) * 4096) 0
      = ((compressedOf mops c).length + 1) / 16777216 % 256 := by
    have h := hg 0
    rw [Nat.add_zero] at h
    rw [h, hform]
    rfl
  have h1 : data.getD ((2 + S) * 4096 + 1) 0
      = ((compressedOf mops c).length + 1) / 65536 % 256 := by
    rw [hg 1, hform]
    rfl
  have h2 : data.getD ((2 + S) * 4096 + 2) 0
      = ((compressedOf mops c).length + 1) / 256 % 256 := by
    rw [hg 2, hform]
    rfl
  have h3 : data.getD ((2 + S) * 4096 + 3) 0
      = ((compressedOf mops c).length + 1) % 256 := by
    rw [hg 3, hform]
    rfl
  have h4 : data.getD ((2 + S) * 4096 + 4) 0 = 2 := by
    rw [hg 4, hform]
    rfl
  have hlenval : ((compressedOf mops c).length + 1) / 16777216 % 256 * 16777216
      + ((compressedOf mops c).length + 1) / 65536 % 256 * 65536
      + ((compressedOf mops c).length + 1) / 256 % 256 * 256
      + ((compressedOf mops c).length + 1) % 256
      = (compressedOf mops c).length + 1 := by omega
  have hslice : slice? data ((2 + S) * 4096 + 5)
      ((2 + S) * 4096 + 4 + ((compressedOf mops c).length + 1))
      = some (compressedOf mops c) := by
    unfold slice?
    rw [if_pos ⟨by omega, by rw [hdlen]; omega⟩]
    have harg : (2 + S) * 4096 + 4 + ((compressedOf mops c).length + 1)
        - ((2 + S) * 4096 + 5) = (compressedOf mops c).length := by omega
    rw [harg]
    have hd5 : data.drop ((2 + S) * 4096 + 5)
        = compressedOf mops c
          ++ (List.replicate (scOf mops c * SECTOR_SIZE - ((compressedOf mops c).length + 5)) 0
              ++ tail) := by
      rw [← List.drop_drop, hdrop, hform]
      rfl
    rw [hd5, List.take_left' rfl]
  have hxz := idxOf_coords c
  simp only [readSlot, SECTOR_SIZE]
  rw [hO, hC]
  rw [if_neg (by rintro (h | h) <;> omega)]
  rw [hdlen]
  rw [if_neg (by omega)]
  rw [h0, h1, h2, h3]
  simp only [h4, hlenval]
  rw [if_neg (by omega)]
  rw [hslice]
  norm_num [hz, hn]
  exact ⟨hxz.1, hxz.2⟩

theorem readSlot_hit (chunks : List (ChunkData F32 F64)) (j : Nat) (hj : j < chunks.length)
    (hnodup : (chunks.map idxOf).Nodup)
    (hsc : ∀ c ∈ chunks, scOf mops c ≤ 255)
    (htot : 2 + sumSC mops chunks ≤ 16777216)
    (hz : mops.zlibDecompress (compressedOf mops (chunks.get ⟨j, hj⟩))
        = some (mops.nbtToBytes (chunks.get ⟨j, hj⟩).data))
    (hn : mops.nbtFromBytes (mops.nbtToBytes (chunks.get ⟨j, hj⟩).data)
        = some ((chunks.get ⟨j, hj⟩).data)) :
    readSlot mops (mcaData mops chunks) (idxOf (chunks.get ⟨j, hj⟩))
      = .ok (some ((chunks.get ⟨j, hj⟩).x % 32, (chunks.get ⟨j, hj⟩).z % 32,
          (chunks.get ⟨j, hj⟩).data)) := by
  have hentry := writeLoop_slot_entry mops chunks (List.replicate SECTOR_SIZE 0) 2 j hj
    (by rw [List.length_replicate]; rfl) hnodup hsc (by omega) htot
  have hreads := mcaData_slot_reads mops chunks (idxOf (chunks.get ⟨j, hj⟩))
    (idxOf_lt (chunks.get ⟨j, hj⟩))
  exact readSlot_hit_aux mops (chunks.get ⟨j, hj⟩) (sumSC mops (chunks.take j))
    (sumSC mops chunks)
    ((chunks.drop (j + 1)).map (chunkDataOf mops)).flatten
    (mcaData mops chunks)
    (hreads.1.trans hentry.1)
    (hreads.2.trans hentry.2)
    (mcaData_length mops chunks)
    (mcaData_drop mops chunks j hj)
    (sumSC_take_get mops chunks j hj)
    (hsc _ (List.get_mem chunks j hj))
    htot hz hn

theorem find?_idxOf : ∀ (chunks : List (ChunkData F32 F64)),
    (chunks.map idxOf).Nodup → ∀ c ∈ chunks,
    chunks.find? (fun d => idxOf d == idxOf c) = some c
  | [], _, c, hc => by simp at hc
  | c' :: rest, hnodup, c, hc => by
    rcases List.mem_cons.1 hc with he | hm
    · subst he
      simp [List.find?]
    · rw [List.map_cons] at hnodup
      have hni := (List.nodup_cons.1 hnodup).1
      have hne : (idxOf c' == idxOf c) = false := by
        rw [beq_eq_false_iff_ne]
        intro he
        exact hni (he ▸ List.mem_map.2 ⟨c, hm, rfl⟩)
      rw [List.find?]
      rw [hne]
      exact find?_idxOf rest (List.nodup_cons.1 hnodup).2 c hm

theorem readSlots_filterMap (data : List Nat) (g : Nat → Option (Int × Int × Value F32 F64)) :
    ∀ idxs : List Nat, (∀ i ∈ idxs, readSlot mops data i = .ok (g i)) →
    readSlots mops data idxs = .ok (idxs.filterMap g)
  | [], _ => rfl
  | i :: rest, h => by
    have hrest := readSlots_filterMap data g rest
      (fun i' hi' => h i' (List.mem_cons_of_mem _ hi'))
    have hi := h i (List.mem_cons_self _ _)
    rw [readSlots, hi, List.filterMap_cons]
    cases hg : g i with
    | none => simpa using hrest
    | some r => simp [hrest]

/-- The record `read_mca` recovers from slot `i` of a container written
for `chunks`: the unique chunk whose local slot is `i`, at its localized
coordinates. -/
def slotVal (chunks : List (ChunkData F32 F64)) (i : Nat) :
    Option (Int × Int × Value F32 F64) :=
  (chunks.find? (fun c => idxOf c == i)).map (fun c => (c.x % 32, c.z % 32, c.data))

theorem readSlot_all (chunks : List (ChunkData F32 F64))
    (hnodup : (chunks.map idxOf).Nodup)
    (hsc : ∀ c ∈ chunks, scOf mops c ≤ 255)
    (htot : 2 + sumSC mops chunks ≤ 16777216)
    (hcodec : ∀ c ∈ chunks,
      mops.zlibDecompress (compressedOf mops c) = some (mops.nbtToBytes c.data)
        ∧ mops.nbtFromBytes (mops.nbtToBytes c.data) = some c.data)
    (i : Nat) (hi : i < 1024) :
    readSlot mops (mcaData mops chunks) i = .ok (slotVal chunks i) := by
  cases hf : chunks.find? (fun c => idxOf c == i) with
  | none =>
    have hmem : i ∉ chunks.map idxOf := by
      intro hm
      rcases List.mem_map.1 hm with ⟨c, hcmem, he⟩
      have hnone := List.find?_eq_none.1 hf c hcmem
      apply hnone
      rw [he]
      exact beq_self_eq_true i
    rw [readSlot_miss mops chunks i hi hmem]
    unfold slotVal
    rw [hf]
    rfl
  | some c =>
    have hc : c ∈ chunks := List.mem_of_find?_eq_some hf
    have hidx : idxOf c = i := by
      have h := List.find?_some hf
      exact eq_of_beq h
    rcases List.mem_iff_get.1 hc with ⟨⟨j, hj⟩, hget⟩
    have hhit := readSlot_hit mops chunks j hj hnodup hsc htot
      (by rw [hget]; exact (hcodec c hc).1)
      (by rw [hget]; exact (hcodec c hc).2)
    rw [hget, hidx] at hhit
    rw [hhit]
    unfold slotVal
    rw [hf]
    rfl

theorem read_mca_mcaData (chunks : List (ChunkData F32 F64))
    (hnodup : (chunks.map idxOf).Nodup)
    (hsc : ∀ c ∈ chunks, scOf mops c ≤ 255)
    (htot : 2 + sumSC mops chunks ≤ 16777216)
    (hcodec : ∀ c ∈ chunks,
      mops.zlibDecompress (compressedOf mops c) = some (mops.nbtToBytes c.data)
        ∧ mops.nbtFromBytes (mops.nbtToBytes c.data) = some c.data) :
    read_mca mops (mcaData mops chunks)
      = .ok ((List.range 1024).filterMap (slotVal chunks)) := by
  unfold read_mca
  rw [if_neg (by rw [mcaData_length]; simp only [SECTOR_SIZE]; omega)]
  exact readSlots_filterMap mops (mcaData mops chunks) (slotVal chunks) (List.range 1024)
    (fun i hi => readSlot_all mops chunks hnodup hsc htot hcodec i (List.mem_range.1 hi))

theorem mem_filterMap_slotVal (chunks : List (ChunkData F32 F64))
    (hnodup : (chunks.map idxOf).Nodup) (r : Int × Int × Value F32 F64) :
    r ∈ (List.range 1024).filterMap (slotVal chunks)
      ↔ ∃ c ∈ chunks, r = (c.x % 32, c.z % 32, c.data) := by
  rw [List.mem_filterMap]
  constructor
  · rintro ⟨i, _, hg⟩
    unfold slotVal at hg
    cases hf : chunks.find? (fun c => idxOf c == i) with
    | none =>
      rw [hf] at hg
      simp at hg
    | some c =>
      rw [hf] at hg
      refine ⟨c, List.mem_of_find?_eq_some hf, ?_⟩
      simpa using hg.symm
  · rintro ⟨c, hc, he⟩
    refine ⟨idxOf c, List.mem_range.2 (idxOf_lt c), ?_⟩
    unfold slotVal
    rw [find?_idxOf chunks hnodup c hc, he]
    rfl

/-- C2: a written container reads back as the same records up to
slot-local coordinate folding.  For records with pairwise-distinct
location slots, per-record sector counts within the table's byte, a
total size within the 3-byte sector offset, and external codecs that
invert on these payloads, every record read is a written one and every
written record is read - at coordinates `x mod 32, z mod 32`, not the
original (possibly negative or large) positions. -/
theorem C2_mca_roundtrip (chunks : List (ChunkData F32 F64))
    (hne : chunks ≠ [])
    (hnodup : (chunks.map idxOf).Nodup)
    (hsc : ∀ c ∈ chunks, scOf mops c ≤ 255)
    (htot : 2 + sumSC mops chunks ≤ 16777216)
    (hcodec : ∀ c ∈ chunks,
      mops.zlibDecompress (compressedOf mops c) = some (mops.nbtToBytes c.data)
        ∧ mops.nbtFromBytes (mops.nbtToBytes c.data) = some c.data) :
    ∃ data out, write_mca mops chunks = some data
      ∧ read_mca mops data = .ok out
      ∧ (∀ r, r ∈ out ↔ ∃ c ∈ chunks, r = (c.x % 32, c.z % 32, c.data)) :=
  ⟨mcaData mops chunks, (List.range 1024).filterMap (slotVal chunks),
    write_mca_eq mops chunks hne,
    read_mca_mcaData mops chunks hnodup hsc htot hcodec,
    fun r => mem_filterMap_slotVal chunks hnodup r⟩

end McaProof

theorem filterMap_range_single {R : Type} (g : Nat → Option R) :
    ∀ (n k : Nat) (r : R), k < n → g k = some r →
    (∀ i, i < n → i ≠ k → g i = none) →
    (List.range n).filterMap g = [r]
  | 0, k, r, hk, _, _ => absurd hk (Nat.not_lt_zero k)
  | n + 1, k, r, hk, hg, hnone => by
    rw [List.range_succ, List.filterMap_append]
    by_cases hkn : k = n
    · have hnil : (List.range n).filterMap g = [] := by
        rw [List.filterMap_eq_nil_iff]
        intro i hi
        exact hnone i (by have := List.mem_range.1 hi; omega)
          (by have := List.mem_range.1 hi; omega)
      rw [hnil, List.nil_append]
      subst hkn
      simp [List.filterMap_cons, hg]
    · have hk' : k < n := by omega
      rw [filterMap_range_single g n k r hk' hg
        (fun i h1 h2 => hnone i (by omega) h2)]
      have hgn : g n = none := hnone n (by omega) (fun h => hkn h.symm)
      simp [List.filterMap_cons, hgn]

/-- Witness for C2: a single record at origin writes and reads back,
with the degenerate byte codecs standing in for fastnbt and zlib. -/
theorem C2_witness :
    ∃ data out,
      write_mca trivMcaOps [⟨0, 0, Value.byte 0⟩] = some data
      ∧ read_mca trivMcaOps data = .ok out
      ∧ (∀ r, r ∈ out ↔ ∃ c ∈ ([⟨0, 0, Value.byte 0⟩] : List (ChunkData Unit Unit)),
          r = (c.x % 32, c.z % 32, c.data)) :=
  C2_mca_roundtrip trivMcaOps [⟨0, 0, Value.byte 0⟩]
    (by simp) (by simp) (by decide) (by decide)
    (by intro c hc; simp only [List.mem_singleton] at hc; subst hc; exact ⟨rfl, rfl⟩)

/-- Against C2 as stated: positions are not reproduced.  A record
written at chunk position `(-1, 0)` is read back at `(31, 0)` - the
sole record of the decoded container - so the decoded set of
(position, tag) pairs differs from the encoded one. -/
theorem C2_counterexample :
    ∃ data,
      write_mca trivMcaOps [⟨-1, 0, Value.byte 0⟩] = some data
      ∧ read_mca trivMcaOps data = .ok [((31 : Int), (0 : Int), Value.byte 0)] := by
  have hidx : idxOf (⟨-1, 0, Value.byte 0⟩ : ChunkData Unit Unit) = 31 := by
    rw [idxOf_eq]
    decide
  have hg31 : slotVal [(⟨-1, 0, Value.byte 0⟩ : ChunkData Unit Unit)] 31
      = some ((31 : Int), (0 : Int), Value.byte 0) := by
    unfold slotVal
    rw [List.find?_cons]
    rw [hidx, show (31 == 31) = true from rfl]
    decide
  have hgnone : ∀ i, i < 1024 → i ≠ 31 →
      slotVal [(⟨-1, 0, Value.byte 0⟩ : ChunkData Unit Unit)] i = none := by
    intro i h1 h2
    unfold slotVal
    rw [List.find?_cons]
    rw [hidx]
    have hb : (31 == i) = false := beq_eq_false_iff_ne.2 (fun h => h2 h.symm)
    rw [hb]
    rfl
  refine ⟨mcaData trivMcaOps [⟨-1, 0, Value.byte 0⟩],
    write_mca_eq trivMcaOps _ (by simp), ?_⟩
  rw [read_mca_mcaData trivMcaOps [⟨-1, 0, Value.byte 0⟩] (by simp) (by decide) (by decide)
    (by intro c hc; simp only [List.mem_singleton] at hc; subst hc; exact ⟨rfl, rfl⟩)]
  rw [filterMap_range_single (slotVal [⟨-1, 0, Value.byte 0⟩]) 1024 31
    ((31 : Int), (0 : Int), Value.byte 0) (by omega) hg31 hgnone]

section Slicing

/-- `MAX_SLICE_SIZE` (src/export.rs): the 8 MiB slice cap. -/
def MAX_SLICE_SIZE : Nat := 8 * 1024 * 1024

/-- Byte total of a group of serialized records
(`chunks.iter().map(|s| s.len()).sum()`). -/
def sumLen (l : List Str) : Nat := (l.map strBytes).sum

/-- The slicing loop of `write_region_sliced` (src/export.rs).
`serde_json::to_string` is an external crate, so the embedding starts
from the source's `serialized` vector of record strings and returns
the groups handed to `write_chunks_direct`, in emission order.
`size` is the running `current_size` byte counter. -/
def sliceLoop : List Str → List Str → Nat → List (List Str)
  | [], current, _ => if current = [] then [] else [current]
  | s :: rest, current, size =>
    if current ≠ [] ∧ size + strBytes s > MAX_SLICE_SIZE then
      current :: sliceLoop rest [s] (strBytes s)
    else
      sliceLoop rest (current ++ [s]) (size + strBytes s)

/-- `write_region_sliced` (src/export.rs), as the list of record
groups written to successive slice files. -/
def write_region_sliced (serialized : List Str) : List (List Str) :=
  sliceLoop serialized [] 0

/-- The record separators of `write_chunks_direct`: each record, a
comma after all but the last, a newline after each. -/
def joinChunks : List Str → Str
  | [] => []
  | [s] => s ++ ['\n']
  | s :: rest => s ++ [','] ++ ['\n'] ++ joinChunks rest

/-- The file content `write_chunks_direct` (src/export.rs) writes for
one slice. -/
def write_chunks_direct (chunks : List Str) : Str :=
  "\x7b\"chunks\":[\n".toList ++ joinChunks chunks ++ "]\x7d\n".toList

theorem strBytes_append (a b : Str) : strBytes (a ++ b) = strBytes a + strBytes b := by
  unfold strBytes
  rw [List.map_append, List.sum_append]

theorem sumLen_append (a b : List Str) : sumLen (a ++ b) = sumLen a + sumLen b := by
  unfold sumLen
  rw [List.map_append, List.sum_append]

theorem joinChunks_bytes : ∀ l : List Str, l ≠ [] →
    strBytes (joinChunks l) = sumLen l + 2 * l.length - 1
  | [], h => absurd rfl h
  | [s], _ => by
    rw [joinChunks, strBytes_append]
    have h1 : strBytes ['\n'] = 1 := rfl
    have h2 : sumLen [s] = strBytes s := by simp [sumLen]
    rw [h1, h2]
    simp
  | s :: s' :: rest, _ => by
    have ih := joinChunks_bytes (s' :: rest) (by simp)
    rw [joinChunks, strBytes_append, strBytes_append, strBytes_append, ih]
    have h1 : strBytes [','] = 1 := rfl
    have h2 : strBytes ['\n'] = 1 := rfl
    have h3 : sumLen (s :: s' :: rest) = strBytes s + sumLen (s' :: rest) := by
      simp [sumLen]
    have h4 : 1 ≤ (s' :: rest).length := by simp
    rw [h1, h2, h3]
    simp only [List.length_cons]
    omega
    simp

theorem write_chunks_direct_bytes (l : List Str) (h : l ≠ []) :
    strBytes (write_chunks_direct l) = sumLen l + 2 * l.length + 14 := by
  unfold write_chunks_direct
  rw [strBytes_append, strBytes_append, joinChunks_bytes l h]
  have h1 : strBytes ("\x7b\"chunks\":[\n".toList) = 12 := by decide
  have h2 : strBytes ("]\x7d\n".toList) = 3 := by decide
  have hL : 0 < l.length := List.length_pos.2 h
  rw [h1, h2]
  omega

theorem sliceLoop_flatten : ∀ (l current : List Str) (size : Nat),
    (sliceLoop l current size).flatten = current ++ l
  | [], current, size => by
    rw [sliceLoop]
    by_cases h : current = []
    · rw [if_pos h, h]
      rfl
    · rw [if_neg h]
      simp
  | s :: rest, current, size => by
    rw [sliceLoop]
    by_cases h : current ≠ [] ∧ size + strBytes s > MAX_SLICE_SIZE
    · rw [if_pos h, List.flatten_cons, sliceLoop_flatten rest [s] (strBytes s)]
      simp
    · rw [if_neg h, sliceLoop_flatten rest (current ++ [s]) (size + strBytes s)]
      simp

theorem sliceLoop_mem : ∀ (l current : List Str) (size : Nat),
    size = sumLen current →
    (sumLen current ≤ MAX_SLICE_SIZE ∨ ∃ s, current = [s] ∧ MAX_SLICE_SIZE < strBytes s) →
    ∀ sl ∈ sliceLoop l current size,
      sl ≠ [] ∧ (sumLen sl ≤ MAX_SLICE_SIZE ∨ ∃ s, sl = [s] ∧ MAX_SLICE_SIZE < strBytes s)
  | [], current, size, _, hP, sl, hsl => by
    rw [sliceLoop] at hsl
    by_cases h : current = []
    · rw [if_pos h] at hsl
      simp at hsl
    · rw [if_neg h] at hsl
      rw [List.mem_singleton] at hsl
      subst hsl
      exact ⟨h, hP⟩
  | s :: rest, current, size, hsz, hP, sl, hsl => by
    rw [sliceLoop] at hsl
    by_cases h : current ≠ [] ∧ size + strBytes s > MAX_SLICE_SIZE
    · rw [if_pos h] at hsl
      rcases List.mem_cons.1 hsl with he | hm
      · subst he
        exact ⟨h.1, hP⟩
      · refine sliceLoop_mem rest [s] (strBytes s) (by simp [sumLen]) ?_ sl hm
        by_cases hb : strBytes s ≤ MAX_SLICE_SIZE
        · left
          simpa [sumLen] using hb
        · right
          exact ⟨s, rfl, by omega⟩
    · rw [if_neg h] at hsl
      push_neg at h
      refine sliceLoop_mem rest (current ++ [s]) (size + strBytes s)
        (by rw [hsz, sumLen_append]; simp [sumLen]) ?_ sl hsl
      by_cases hce : current = []
      · subst hce
        by_cases hb : strBytes s ≤ MAX_SLICE_SIZE
        · left
          simpa [sumLen] using hb
        · right
          exact ⟨s, by simp, by omega⟩
      · left
        have hle := h hce
        rw [sumLen_append]
        have hs1 : sumLen [s] = strBytes s := by simp [sumLen]
        omega

theorem strBytes_le_sumLen (s : Str) : ∀ l : List Str, s ∈ l → strBytes s ≤ sumLen l
  | [], h => absurd h (List.not_mem_nil s)
  | s' :: rest, h => by
    rcases List.mem_cons.1 h with he | hm
    · subst he
      simp [sumLen]
    · have ih := strBytes_le_sumLen s rest hm
      simp only [sumLen, List.map_cons, List.sum_cons]
      simp only [sumLen] at ih
      omega

theorem write_region_sliced_single (r : Str) : write_region_sliced [r] = [[r]] := by
  rw [write_region_sliced, sliceLoop, if_neg (by simp), sliceLoop, if_neg (by simp)]
  simp

theorem write_chunks_direct_single_bytes (r : Str) :
    strBytes (write_chunks_direct [r]) = strBytes r + 16 := by
  rw [write_chunks_direct_bytes [r] (by simp)]
  have hs1 : sumLen [r] = strBytes r := by simp [sumLen]
  rw [hs1]
  simp only [List.length_cons, List.length_nil]

/-- C4: what the slicing actually guarantees.  Record groups
partition the serialized records in order (no record is split or
dropped); every slice is nonempty and its record byte total is within
the 8 MiB cap unless it is a single oversized record; any oversized
record sits alone in its slice, untruncated; and the emitted file
holds the records' bytes plus 2n + 14 wrapper bytes - so a slice
file's byte size is not bounded by the cap, only the record total
is. -/
theorem C4_slicing (serialized : List Str) :
    (write_region_sliced serialized).flatten = serialized
    ∧ ∀ sl ∈ write_region_sliced serialized,
        sl ≠ []
        ∧ (sumLen sl ≤ MAX_SLICE_SIZE ∨ ∃ s, sl = [s] ∧ MAX_SLICE_SIZE < strBytes s)
        ∧ (∀ s ∈ sl, MAX_SLICE_SIZE < strBytes s → sl = [s])
        ∧ strBytes (write_chunks_direct sl) = sumLen sl + 2 * sl.length + 14 := by
  constructor
  · exact sliceLoop_flatten serialized [] 0
  · intro sl hsl
    have hmem := sliceLoop_mem serialized [] 0 (by simp [sumLen])
      (by left; simp [sumLen]) sl hsl
    refine ⟨hmem.1, hmem.2, ?_, write_chunks_direct_bytes sl hmem.1⟩
    intro s hs hover
    rcases hmem.2 with hle | ⟨s', he, _⟩
    · exact absurd (strBytes_le_sumLen s sl hs) (by omega)
    · subst he
      rw [List.mem_singleton] at hs
      rw [hs]

/-- Against C4 as stated: a slice holding one record of exactly the 8
MiB cap - not an oversized record, so the claim's exception does not
apply - is written as a file of 8388624 bytes, exceeding the cap: the
cap bounds only the records' bytes, not the emitted file. -/
theorem C4_counterexample :
    write_region_sliced [List.replicate 8388608 'a'] = [[List.replicate 8388608 'a']]
    ∧ strBytes (List.replicate 8388608 'a') ≤ MAX_SLICE_SIZE
    ∧ MAX_SLICE_SIZE < strBytes (write_chunks_direct [List.replicate 8388608 'a']) := by
  have hb : strBytes (List.replicate 8388608 'a') = 8388608 := by
    unfold strBytes
    rw [List.map_replicate, show Char.utf8Size 'a' = 1 from rfl, List.sum_replicate]
    simp
  refine ⟨write_region_sliced_single _, by rw [hb]; norm_num [MAX_SLICE_SIZE], ?_⟩
  rw [write_chunks_direct_single_bytes, hb]
  norm_num [MAX_SLICE_SIZE]

end Slicing

section Filename

/-- One regex group `-?\d+` matched at the head of a string: the
captured text and the remainder.  `\d` and the following literal dot
are disjoint character classes, so the greedy `+` is the maximal
digit run and matching is deterministic (no backtracking can succeed
where this fails). -/
def matchCoord : Str → Option (Str × Str)
  | [] => none
  | c :: rest =>
    if c = '-' then
      if rest.takeWhile isDig = [] then none
      else some ('-' :: rest.takeWhile isDig, rest.dropWhile isDig)
    else
      if (c :: rest).takeWhile isDig = [] then none
      else some ((c :: rest).takeWhile isDig, (c :: rest).dropWhile isDig)

/-- The pattern `r\.(-?\d+)\.(-?\d+)\.mca` of `parse_mca_filename`
matched at the start of `s`; the pattern is unanchored, so anything
may follow the `mca`. -/
def matchAt (s : Str) : Option (Str × Str) :=
  match s with
  | 'r' :: '.' :: rest =>
    match matchCoord rest with
    | none => none
    | some (g1, rest1) =>
      match rest1 with
      | '.' :: rest2 =>
        match matchCoord rest2 with
        | none => none
        | some (g2, rest3) =>
          match rest3 with
          | '.' :: 'm' :: 'c' :: 'a' :: _ => some (g1, g2)
          | _ => none
      | _ => none
  | _ => none

/-- `Regex::captures`: the leftmost position where the pattern
matches, scanning from the left. -/
def findCaps : Str → Option (Str × Str)
  | [] => none
  | c :: rest =>
    match matchAt (c :: rest) with
    | some r => some r
    | none => findCaps rest

/-- `parse_mca_filename` (src/mca.rs): the two captures of the
leftmost regex match, parsed as `i32`; no match or a parse overflow
is `None`. -/
def parse_mca_filename (s : Str) : Option (Int × Int) :=
  match findCaps s with
  | none => none
  | some (g1, g2) =>
    match parseI32 g1, parseI32 g2 with
    | some rx, some rz => some (rx, rz)
    | _, _ => none

theorem takeWhile_digit_prefix : ∀ ds : Str, (∀ c ∈ ds, isDig c = true) → ∀ r : Str,
    (ds ++ '.' :: r).takeWhile isDig = ds
      ∧ (ds ++ '.' :: r).dropWhile isDig = '.' :: r
  | [], _, r => by
    rw [List.nil_append]
    constructor
    · rw [List.takeWhile_cons, show isDig '.' = false from rfl]
      simp
    · rw [List.dropWhile_cons, show isDig '.' = false from rfl]
      simp
  | c :: ds', h, r => by
    have hc : isDig c = true := h c (List.mem_cons_self _ _)
    have ih := takeWhile_digit_prefix ds' (fun d hd => h d (List.mem_cons_of_mem _ hd)) r
    rw [List.cons_append, List.takeWhile_cons, List.dropWhile_cons, hc]
    simp only [if_true]
    rw [ih.1, ih.2]
    exact ⟨rfl, rfl⟩

theorem fmtNat_head_ne_dash (n : Nat) (c : Char) (cs : Str) (hn : fmtNat n = c :: cs) :
    ¬c = '-' := by
  have hc : isDig c = true := fmtNat_digits n c (by rw [hn]; exact List.mem_cons_self _ _)
  intro he
  rw [he] at hc
  simp [isDig] at hc

theorem matchCoord_fmtInt (v : Int) (r : Str) :
    matchCoord (fmtInt v ++ '.' :: r) = some (fmtInt v, '.' :: r) := by
  by_cases hv : v < 0
  · have hfi : fmtInt v = '-' :: fmtNat (-v).toNat := by
      unfold fmtInt
      rw [if_pos hv]
    have hpre := takeWhile_digit_prefix (fmtNat (-v).toNat) (fmtNat_digits _) r
    rw [hfi, List.cons_append, matchCoord, if_pos rfl, hpre.1, hpre.2,
      if_neg (fmtNat_ne_nil _)]
  · have hfi : fmtInt v = fmtNat v.toNat := by
      unfold fmtInt
      rw [if_neg hv]
    have hpre := takeWhile_digit_prefix (fmtNat v.toNat) (fmtNat_digits _) r
    have hne := fmtNat_ne_nil v.toNat
    rw [hfi]
    cases hn : fmtNat v.toNat with
    | nil => exact absurd hn hne
    | cons c cs =>
      rw [hn] at hpre
      rw [List.cons_append, matchCoord, if_neg (fmtNat_head_ne_dash v.toNat c cs hn),
        ← List.cons_append, hpre.1, hpre.2]
      rw [if_neg (by rw [← hn]; exact hne)]

/-- C8 (amended, positive direction): every filename of the exact
canonical shape `r.<cx>.<cz>.mca` - coordinates rendered as Rust's
`Display` does, with a leading minus for negatives - parses to
`Some (cx, cz)` whenever both coordinates are in `i32` range.  The
original claim's rejection direction is refuted separately by the
counterexample: the regex is unanchored, and overflow of a captured
coordinate turns an exact-shape name into `None`. -/
theorem C8_parse_filename (cx cz : Int)
    (hx1 : -2147483648 ≤ cx) (hx2 : cx ≤ 2147483647)
    (hz1 : -2147483648 ≤ cz) (hz2 : cz ≤ 2147483647) :
    parse_mca_filename
        ('r' :: '.' :: (fmtInt cx ++ '.' :: (fmtInt cz ++ '.' :: 'm' :: 'c' :: 'a' :: [])))
      = some (cx, cz) := by
  have h1 := matchCoord_fmtInt cx (fmtInt cz ++ '.' :: 'm' :: 'c' :: 'a' :: [])
  have h2 := matchCoord_fmtInt cz ('m' :: 'c' :: 'a' :: [])
  have hA : matchAt
      ('r' :: '.' :: (fmtInt cx ++ '.' :: (fmtInt cz ++ '.' :: 'm' :: 'c' :: 'a' :: [])))
      = some (fmtInt cx, fmtInt cz) := by
    rw [matchAt]
    simp only [h1, h2]
  have hF : findCaps
      ('r' :: '.' :: (fmtInt cx ++ '.' :: (fmtInt cz ++ '.' :: 'm' :: 'c' :: 'a' :: [])))
      = some (fmtInt cx, fmtInt cz) := by
    rw [findCaps, hA]
  rw [parse_mca_filename, hF]
  have hpx : parseI32 (fmtInt cx) = some cx := parseIntIn_fmtInt _ _ cx hx1 hx2
  have hpz : parseI32 (fmtInt cz) = some cz := parseIntIn_fmtInt _ _ cz hz1 hz2
  simp only [hpx, hpz]

/-- Witness for C8: the canonical filename `r.1.-2.mca`. -/
theorem C8_witness :
    parse_mca_filename
        ('r' :: '.' :: (fmtInt 1 ++ '.' :: (fmtInt (-2) ++ '.' :: 'm' :: 'c' :: 'a' :: [])))
      = some (1, -2) :=
  C8_parse_filename 1 (-2) (by decide) (by decide) (by decide) (by decide)

/-- Against C8 as stated: `xr.1.2.mca` does not have the exact shape
`r.<cx>.<cz>.mca`, yet the unanchored regex matches at offset 1 and
the parser returns `Some (1, 2)`; and `r.99999999999.0.mca` has the
exact shape but its first coordinate overflows `i32`, so the parser
returns `None`, not the claimed `Some`. -/
theorem C8_counterexample :
    parse_mca_filename ("xr.1.2.mca".toList) = some (1, 2)
    ∧ parse_mca_filename ("r.99999999999.0.mca".toList) = none := by
  constructor
  · decide
  · decide

end Filename
